import Mathlib

/-!
Verification development for the declaration-lowering and symbol-linkage
layer of a compiler backend (GenDecl.cpp).  The definitions below are a
shallow embedding of the functions of that file: declaration contexts,
link entities and the linkage decision table, symbol creation with
collision handling, the per-module artifact cache with its forward
declaration upgrade path, source-file initializer synthesis, type
metadata addressing, extension/category emission, formal getter and
setter types, and the global string cache.
-/

set_option maxRecDepth 4000

namespace GenDecl

/-! ## Declaration contexts and locality (isLocalLinkageDecl, isLocalLinkageType) -/

/-- One declaration context on the parent chain of a declaration.  Only the
property consulted by the locality walk is retained. -/
structure DCtx where
  isLocalContext : Bool
deriving DecidableEq

/-- Kind of a value declaration, as far as thunk classification needs it. -/
inductive VDKind where
  | constructorKind
  | subscriptKind
  | computedVarKind
  | storedVarKind
  | funcKind
  | otherKind
deriving DecidableEq

/-- A declaration, abstracted to the data GenDecl.cpp consults: its chain of
declaration contexts up to (and excluding) the module context, whether its
module-scope context is a Clang module unit, and its kind. -/
structure LDecl where
  declContextChain : List DCtx
  moduleScopeIsClang : Bool
  kind : VDKind
deriving DecidableEq

/-- Walk the declaration context parents until the module boundary; the
declaration has local linkage when any context on the way is local.
Mirrors the while loop of isLocalLinkageDecl. -/
def isLocalLinkageDecl (d : LDecl) : Bool :=
  walk d.declContextChain
where
  walk : List DCtx → Bool
    | [] => false
    | c :: rest => c.isLocalContext || walk rest

mutual
/-- A canonical type, abstracted to the structure the locality scan visits:
nominal references (with generic arguments), function types, tuples, and
polymorphic function types with their generic parameter clause. -/
inductive LTy where
  | base
  | nominal (d : LDecl) (args : List LTy)
  | fnTy (a r : LTy)
  | tupleTy (elems : List LTy)
  | polyFnTy (params : List LGenericParam) (a r : LTy)

/-- A generic type parameter: its protocol bounds and optional superclass
bound. -/
inductive LGenericParam where
  | mk (protocols : List LDecl) (superclass : Option LTy)
end

mutual
/-- Structural scan of a type for local linkage: any nominal reference to a
locally-declared nominal, or any polymorphic function type whose generic
clause is local, makes the type local.  This is the findIf of
isLocalLinkageType, with the explicit generic-clause case for polymorphic
function types. -/
def isLocalLinkageType : LTy → Bool
  | .base => false
  | .nominal d args => isLocalLinkageDecl d || isLocalLinkageTypeList args
  | .fnTy a r => isLocalLinkageType a || isLocalLinkageType r
  | .tupleTy elems => isLocalLinkageTypeList elems
  | .polyFnTy params a r =>
      isLocalLinkageGenericClause params || isLocalLinkageType a ||
        isLocalLinkageType r

def isLocalLinkageTypeList : List LTy → Bool
  | [] => false
  | t :: ts => isLocalLinkageType t || isLocalLinkageTypeList ts

/-- Type parameters are local-linkage if any of their constraining types
are.  Mirrors isLocalLinkageGenericClause. -/
def isLocalLinkageGenericClause : List LGenericParam → Bool
  | [] => false
  | p :: ps => isLocalLinkageGenericParam p || isLocalLinkageGenericClause ps

def isLocalLinkageGenericParam : LGenericParam → Bool
  | .mk protocols superclass =>
      isLocalLinkageProtoBounds protocols ||
        (match superclass with
          | some s => isLocalLinkageType s
          | none => false)

/-- The source applies isLocalLinkageType to the declared type of each
protocol bound; the declared type of a protocol is the bare protocol type,
whose only nominal reference is the protocol declaration itself, so the
scan reduces to the declaration check. -/
def isLocalLinkageProtoBounds : List LDecl → Bool
  | [] => false
  | p :: ps => isLocalLinkageDecl p || isLocalLinkageProtoBounds ps
end

/-! ## Link entities and the linkage decision table (LinkEntity, LinkInfo::get) -/

/-- Linkage of a SIL function or SIL global variable. -/
inductive SILLinkage where
  | silInternal
  | silThunk
  | silDeserialized
  | silExternal
deriving DecidableEq

/-- A link entity: one constructor per LinkEntity kind, carrying the
payload that the linkage computation consults (a declaration, a type, a
conformance tag, or a SIL linkage). -/
inductive LinkEntity where
  | valueWitness (t : LTy) (w : Nat)
  | valueWitnessTable (t : LTy)
  | typeMetadata (t : LTy) (isIndirect isPattern : Bool)
  | typeMangling (t : LTy)
  | debuggerTypeMangling (t : LTy)
  | witnessTableOffset (d : LDecl)
  | constructorEntity (d : LDecl)
  | destructorEntity (d : LDecl)
  | functionEntity (d : LDecl)
  | getterEntity (d : LDecl)
  | setterEntity (d : LDecl)
  | otherEntity (d : LDecl)
  | objcClassEntity (d : LDecl)
  | objcMetaclassEntity (d : LDecl)
  | swiftMetaclassStub (d : LDecl)
  | fieldOffset (d : LDecl)
  | nominalTypeDescriptor (d : LDecl)
  | protocolDescriptor (d : LDecl)
  | debuggerDeclTypeMangling (d : LDecl)
  | directProtocolWitnessTable (c : Nat)
  | lazyProtocolWitnessTableAccessor (c : Nat)
  | dependentProtocolWitnessTableGenerator (c : Nat)
  | lazyProtocolWitnessTableTemplate (c : Nat)
  | dependentProtocolWitnessTableTemplate (c : Nat)
  | anonymousFunction (u : Nat)
  | bridgeToBlockConverter (u : Nat)
  | silFunctionEntity (linkage : SILLinkage)
  | silGlobalVariableEntity (linkage : SILLinkage)

/-- A declaration nested in a local context. -/
def exLocalDecl : LDecl :=
  { declContextChain := [{ isLocalContext := true }],
    moduleScopeIsClang := false, kind := VDKind.funcKind }

/-- A module-scope declaration of the current module. -/
def exGlobalDecl : LDecl :=
  { declContextChain := [], moduleScopeIsClang := false,
    kind := VDKind.funcKind }

/-- LinkEntity::isLocalLinkage: the switch over entity kinds.  Value
witnesses and manglings depend on the linkage of their type; declaration
kinds on their declaration; witness table accessors and generators are
never local; witness table templates and anonymous functions always are;
bridge-to-block shims are always provided from a stub; SIL entities follow
their SIL linkage. -/
def LinkEntity.isLocalLinkage : LinkEntity → Bool
  | .valueWitness t _ => isLocalLinkageType t
  | .valueWitnessTable t => isLocalLinkageType t
  | .typeMetadata t _ _ => isLocalLinkageType t
  | .typeMangling t => isLocalLinkageType t
  | .debuggerTypeMangling t => isLocalLinkageType t
  | .witnessTableOffset d => isLocalLinkageDecl d
  | .constructorEntity d => isLocalLinkageDecl d
  | .destructorEntity d => isLocalLinkageDecl d
  | .functionEntity d => isLocalLinkageDecl d
  | .getterEntity d => isLocalLinkageDecl d
  | .setterEntity d => isLocalLinkageDecl d
  | .otherEntity d => isLocalLinkageDecl d
  | .objcClassEntity d => isLocalLinkageDecl d
  | .objcMetaclassEntity d => isLocalLinkageDecl d
  | .swiftMetaclassStub d => isLocalLinkageDecl d
  | .fieldOffset d => isLocalLinkageDecl d
  | .nominalTypeDescriptor d => isLocalLinkageDecl d
  | .protocolDescriptor d => isLocalLinkageDecl d
  | .debuggerDeclTypeMangling d => isLocalLinkageDecl d
  | .directProtocolWitnessTable _ => false
  | .lazyProtocolWitnessTableAccessor _ => false
  | .dependentProtocolWitnessTableGenerator _ => false
  | .lazyProtocolWitnessTableTemplate _ => true
  | .dependentProtocolWitnessTableTemplate _ => true
  | .anonymousFunction _ => true
  | .bridgeToBlockConverter _ => false
  | .silFunctionEntity l => l == SILLinkage.silInternal
  | .silGlobalVariableEntity l => l == SILLinkage.silInternal

/-- Modelled from the spec: LinkEntity::isValueWitness is declared in
Linking.h, which is not part of this source; per the spec the
value-witness rule covers the per-type runtime-support records, the value
witness function and value witness table entities. -/
def LinkEntity.isValueWitness : LinkEntity → Bool
  | .valueWitness _ _ => true
  | .valueWitnessTable _ => true
  | _ => false

/-- The nominal declaration of a type, when its head is a nominal
reference (getNominalOrBoundGenericNominal). -/
def LTy.nominalDecl : LTy → Option LDecl
  | .nominal d _ => some d
  | _ => none

/-- LinkEntity::isThunk: SIL entities follow their SIL linkage; for
declaration kinds, the declaration must come from a Clang module unit, and
then nominal type descriptors and protocol descriptors are always thunks,
as are constructors, subscripts and computed properties; conformance kinds
are never thunks; type kinds are thunks when their nominal declaration
lives in a Clang module unit.  The anonymous function and bridge-to-block
kinds carry no declaration in this model and are classified as non-thunks
(modelled from the spec, which treats thunks as shims for foreign
declarations). -/
def LinkEntity.isThunk : LinkEntity → Bool
  | .silFunctionEntity l => l == SILLinkage.silThunk
  | .silGlobalVariableEntity l => l == SILLinkage.silThunk
  | .witnessTableOffset d => d.moduleScopeIsClang &&
      (d.kind == VDKind.constructorKind || d.kind == VDKind.subscriptKind ||
        d.kind == VDKind.computedVarKind)
  | .constructorEntity d => d.moduleScopeIsClang &&
      (d.kind == VDKind.constructorKind || d.kind == VDKind.subscriptKind ||
        d.kind == VDKind.computedVarKind)
  | .destructorEntity d => d.moduleScopeIsClang &&
      (d.kind == VDKind.constructorKind || d.kind == VDKind.subscriptKind ||
        d.kind == VDKind.computedVarKind)
  | .functionEntity d => d.moduleScopeIsClang &&
      (d.kind == VDKind.constructorKind || d.kind == VDKind.subscriptKind ||
        d.kind == VDKind.computedVarKind)
  | .getterEntity d => d.moduleScopeIsClang &&
      (d.kind == VDKind.constructorKind || d.kind == VDKind.subscriptKind ||
        d.kind == VDKind.computedVarKind)
  | .setterEntity d => d.moduleScopeIsClang &&
      (d.kind == VDKind.constructorKind || d.kind == VDKind.subscriptKind ||
        d.kind == VDKind.computedVarKind)
  | .otherEntity d => d.moduleScopeIsClang &&
      (d.kind == VDKind.constructorKind || d.kind == VDKind.subscriptKind ||
        d.kind == VDKind.computedVarKind)
  | .objcClassEntity d => d.moduleScopeIsClang &&
      (d.kind == VDKind.constructorKind || d.kind == VDKind.subscriptKind ||
        d.kind == VDKind.computedVarKind)
  | .objcMetaclassEntity d => d.moduleScopeIsClang &&
      (d.kind == VDKind.constructorKind || d.kind == VDKind.subscriptKind ||
        d.kind == VDKind.computedVarKind)
  | .swiftMetaclassStub d => d.moduleScopeIsClang &&
      (d.kind == VDKind.constructorKind || d.kind == VDKind.subscriptKind ||
        d.kind == VDKind.computedVarKind)
  | .fieldOffset d => d.moduleScopeIsClang &&
      (d.kind == VDKind.constructorKind || d.kind == VDKind.subscriptKind ||
        d.kind == VDKind.computedVarKind)
  | .nominalTypeDescriptor d => d.moduleScopeIsClang
  | .protocolDescriptor d => d.moduleScopeIsClang
  | .debuggerDeclTypeMangling d => d.moduleScopeIsClang &&
      (d.kind == VDKind.constructorKind || d.kind == VDKind.subscriptKind ||
        d.kind == VDKind.computedVarKind)
  | .directProtocolWitnessTable _ => false
  | .lazyProtocolWitnessTableAccessor _ => false
  | .dependentProtocolWitnessTableGenerator _ => false
  | .lazyProtocolWitnessTableTemplate _ => false
  | .dependentProtocolWitnessTableTemplate _ => false
  | .anonymousFunction _ => false
  | .bridgeToBlockConverter _ => false
  | .valueWitness t _ =>
      (match t.nominalDecl with
        | some d => d.moduleScopeIsClang
        | none => false)
  | .valueWitnessTable t =>
      (match t.nominalDecl with
        | some d => d.moduleScopeIsClang
        | none => false)
  | .typeMetadata t _ _ =>
      (match t.nominalDecl with
        | some d => d.moduleScopeIsClang
        | none => false)
  | .typeMangling t =>
      (match t.nominalDecl with
        | some d => d.moduleScopeIsClang
        | none => false)
  | .debuggerTypeMangling t =>
      (match t.nominalDecl with
        | some d => d.moduleScopeIsClang
        | none => false)

/-- LinkEntity::isDeserialized: only SIL entities can be deserialized. -/
def LinkEntity.isDeserialized : LinkEntity → Bool
  | .silFunctionEntity l => l == SILLinkage.silDeserialized
  | .silGlobalVariableEntity l => l == SILLinkage.silDeserialized
  | _ => false

/-- IR linkage classes used by this layer. -/
inductive Linkage where
  | internal
  | linkOnceODR
  | external
  | privateLinkage
  | appending
deriving DecidableEq

/-- IR symbol visibility. -/
inductive Visibility where
  | defaultVis
  | hidden
deriving DecidableEq

/-- The linkage record derived for an entity (the mangled name is produced
by the external mangler and omitted here). -/
structure LinkRecord where
  linkage : Linkage
  visibility : Visibility
deriving DecidableEq

/-- LinkInfo::get: the linkage decision chain.  Local entities are
internal with default visibility; otherwise value witnesses, thunks and
deserialized entities are link-once-deduplicated and hidden; everything
else is external with default visibility. -/
def linkInfoGet (e : LinkEntity) : LinkRecord :=
  if e.isLocalLinkage then
    { linkage := Linkage.internal, visibility := Visibility.defaultVis }
  else if e.isValueWitness then
    { linkage := Linkage.linkOnceODR, visibility := Visibility.hidden }
  else if e.isThunk then
    { linkage := Linkage.linkOnceODR, visibility := Visibility.hidden }
  else if e.isDeserialized then
    { linkage := Linkage.linkOnceODR, visibility := Visibility.hidden }
  else
    { linkage := Linkage.external, visibility := Visibility.defaultVis }

/-! ## Symbol creation and name collisions (LinkInfo::createFunction, createVariable) -/

/-- An IR global value: a function or a global variable.  For a function
the stored type is its function type; for a global variable it is the
storage (value) type, so that two symbols have pointer-compatible
addresses exactly when their stored types and shapes agree. -/
structure CSym where
  name : String
  isFn : Bool
  ty : Nat
  linkage : Linkage
  visibility : Visibility
deriving DecidableEq

instance : Inhabited CSym :=
  ⟨{ name := "", isFn := false, ty := 0, linkage := Linkage.external,
     visibility := Visibility.defaultVis }⟩

/-- Look up the global value with the given name. -/
def getNamedValue (m : List CSym) (n : String) : Option CSym :=
  m.find? (fun s => s.name == n)

/-- Module::getFunction: the named global value when it is a function,
otherwise nothing (the lookup result is cast to a function). -/
def getFunction (m : List CSym) (n : String) : Option CSym :=
  match getNamedValue m n with
  | some s => if s.isFn then some s else none
  | none => none

/-- Module::getNamedGlobal, as the source uses it: the named global value,
which the caller then tests for being a global variable. -/
def getNamedGlobal (m : List CSym) (n : String) : Option CSym :=
  getNamedValue m n

/-- Choose a name not yet present in the module, starting from the given
base and appending a disambiguating suffix while the name is taken (the
IR layer uniques names implicitly). -/
def uniquifyNameAux : Nat → List CSym → String → String
  | 0, _, n => n
  | fuel + 1, m, n =>
      if (getNamedValue m n).isSome then uniquifyNameAux fuel m (n ++ ".u")
      else n

def uniquifyName (m : List CSym) (n : String) : String :=
  uniquifyNameAux (m.length + 1) m n

/-- Add a freshly created global value to the module; when its name is
already taken the new value is implicitly renamed with a disambiguating
suffix.  Returns the value as added. -/
def insertSymbol (m : List CSym) (s : CSym) : CSym × List CSym :=
  let s' := { s with name := uniquifyName m s.name }
  (s', m ++ [s'])

/-- GlobalValue::setName: rename the value currently called oldName; when
the requested new name is taken by another value the rename implicitly
uniques it. -/
def renameSymbol (m : List CSym) (oldName newName : String) : List CSym :=
  let target := uniquifyName (m.filter (fun s => s.name ≠ oldName)) newName
  m.map (fun s => if s.name = oldName then { s with name := target } else s)

/-- A diagnostic: an optional source location (none is the null location)
and a message. -/
structure Diag where
  loc : Option Nat
  message : String
deriving DecidableEq

/-- Message of the function-collision diagnostic, naming the colliding
mangled name. -/
def funcCollisionMessage (n : String) : String :=
  "program too clever: function collides with existing symbol " ++ n

/-- Message of the variable-collision diagnostic, naming the colliding
mangled name. -/
def varCollisionMessage (n : String) : String :=
  "program too clever: variable collides with existing symbol " ++ n

/-- LinkInfo::createFunction: look up the mangled name; an existing
function of the requested function type is returned as is; an existing
function of a different type is diagnosed at the null location, renamed
with a .unique suffix, and a fresh function with the requested identity is
created; when the name belongs to no function the fresh function is simply
created.  Returns the resulting symbol, the updated module and the emitted
diagnostics. -/
def createFunction (name : String) (lk : Linkage) (vis : Visibility)
    (m : List CSym) (fnTy : Nat) : CSym × List CSym × List Diag :=
  match getFunction m name with
  | some existing =>
      if existing.ty = fnTy then (existing, m, [])
      else
        let diags := [{ loc := none, message := funcCollisionMessage name }]
        let m1 := renameSymbol m name (name ++ ".unique")
        let fn : CSym :=
          { name := name, isFn := true, ty := fnTy, linkage := lk,
            visibility := vis }
        let (s, m2) := insertSymbol m1 fn
        (s, m2, diags)
  | none =>
      let fn : CSym :=
        { name := name, isFn := true, ty := fnTy, linkage := lk,
          visibility := vis }
      let (s, m1) := insertSymbol m fn
      (s, m1, [])

/-- LinkInfo::createVariable: look up the mangled name among global
values; an existing global variable of the requested storage type is
returned as is; any other named value (a variable of a different type, or
a function) is diagnosed at the null location and renamed with a .unique
suffix, and a fresh global variable with the requested identity is
created. -/
def createVariable (name : String) (lk : Linkage) (vis : Visibility)
    (m : List CSym) (storageTy : Nat) : CSym × List CSym × List Diag :=
  match getNamedGlobal m name with
  | some existing =>
      if existing.isFn = false ∧ existing.ty = storageTy then
        (existing, m, [])
      else
        let diags := [{ loc := none, message := varCollisionMessage name }]
        let m1 := renameSymbol m name (name ++ ".unique")
        let var : CSym :=
          { name := name, isFn := false, ty := storageTy, linkage := lk,
            visibility := vis }
        let (s, m2) := insertSymbol m1 var
        (s, m2, diags)
  | none =>
      let var : CSym :=
        { name := name, isFn := false, ty := storageTy, linkage := lk,
          visibility := vis }
      let (s, m1) := insertSymbol m var
      (s, m1, [])

/-- A module holding one global variable named m, used to exercise the
collision paths. -/
def exModule : List CSym :=
  [{ name := "m", isFn := false, ty := 7, linkage := Linkage.external,
     visibility := Visibility.defaultVis }]

/-- A module holding one function named f of type 5. -/
def exModule2 : List CSym :=
  [{ name := "f", isFn := true, ty := 5, linkage := Linkage.external,
     visibility := Visibility.defaultVis }]

/-! ## The artifact cache (getAddrOfFunction, getAddrOfLLVMVariable) -/

/-- Association lookup on entity-key maps, first match wins. -/
def lookupN (k : Nat) : List (Nat × Nat) → Option Nat
  | [] => none
  | p :: ps => if p.1 = k then some p.2 else lookupN k ps

/-- Replace the binding of a key in an association list. -/
def updateN (k v : Nat) : List (Nat × Nat) → List (Nat × Nat)
  | [] => []
  | p :: ps => if p.1 = k then (k, v) :: ps else p :: updateN k v ps

/-- An IR symbol as the cache sees it: its identity, the entity key it was
created for, and its value type. -/
structure Sym where
  id : Nat
  key : Nat
  ty : Nat
deriving DecidableEq

/-- State of one module's lowering, restricted to the artifact cache: the
next fresh symbol identity, the live symbols of the module, the splice map
recording which erased symbol had its uses replaced by which newer symbol,
the function cache (GlobalFuncs) and variable cache (GlobalVars), and a
log of every request served, as the pair of its entity key and the
identity of the symbol the returned handle refers to. -/
structure CacheSt where
  nextId : Nat
  syms : List Sym
  forward : List (Nat × Nat)
  fnCache : List (Nat × Nat)
  varCache : List (Nat × Nat)
  log : List (Nat × Nat)
deriving DecidableEq

/-- The empty lowering state at the start of a module. -/
def initSt : CacheSt :=
  { nextId := 0, syms := [], forward := [], fnCache := [], varCache := [],
    log := [] }

/-- A lowering request: a function request (getAddrOfFunction and the
other function entry points) with the lowered function type, or a variable
request (getAddrOfLLVMVariable) with an optional definition type and the
default type of the entity. -/
inductive Req where
  | fn (k : Nat) (ty : Nat)
  | var (k : Nat) (defTy : Option Nat) (defaultTy : Nat)
deriving DecidableEq

/-- Serve one request against the cache.

A function request returns the cached symbol when present, and otherwise
creates a fresh function and caches it.

A variable request with no cached entry creates a variable of the
definition type when one is supplied and of the default type otherwise.
On a cache hit with no definition type the entry is returned, bitcast to
the pointer-to-default type when needed.  On a cache hit with a definition
type, the source asserts that the cached entry still has the default type;
if the definition type equals the default type the entry is returned,
otherwise a fresh variable of the definition type is created, every use of
the stale entry is spliced over to it, the stale entry is erased, and the
cache is updated.  An assertion failure is modelled as returning none. -/
def processReq (st : CacheSt) : Req → Option CacheSt
  | .fn k ty =>
      match lookupN k st.fnCache with
      | some i => some { st with log := st.log ++ [(k, i)] }
      | none =>
          let i := st.nextId
          some { st with
                  nextId := i + 1,
                  syms := st.syms ++ [{ id := i, key := k, ty := ty }],
                  fnCache := st.fnCache ++ [(k, i)],
                  log := st.log ++ [(k, i)] }
  | .var k defTy defaultTy =>
      match lookupN k st.varCache with
      | some i =>
          match defTy with
          | none => some { st with log := st.log ++ [(k, i)] }
          | some d =>
              match st.syms.find? (fun s => s.id == i) with
              | none => none
              | some s =>
                  if s.ty ≠ defaultTy then none
                  else if d = defaultTy then
                    some { st with log := st.log ++ [(k, i)] }
                  else
                    let j := st.nextId
                    some { st with
                            nextId := j + 1,
                            syms := st.syms.filter (fun s => s.id ≠ i) ++
                              [{ id := j, key := k, ty := d }],
                            forward := st.forward ++ [(i, j)],
                            varCache := updateN k j st.varCache,
                            log := st.log ++ [(k, j)] }
      | none =>
          let d := defTy.getD defaultTy
          let i := st.nextId
          some { st with
                  nextId := i + 1,
                  syms := st.syms ++ [{ id := i, key := k, ty := d }],
                  varCache := st.varCache ++ [(k, i)],
                  log := st.log ++ [(k, i)] }

/-- Serve a list of requests in order. -/
def runReqs (st : CacheSt) : List Req → Option CacheSt
  | [] => some st
  | r :: rs =>
      match processReq st r with
      | some st' => runReqs st' rs
      | none => none

/-- The entity key of a request. -/
def Req.key : Req → Nat
  | .fn k _ => k
  | .var k _ _ => k

/-- Whether a request is a function request. -/
def Req.isFnReq : Req → Bool
  | .fn _ _ => true
  | .var _ _ _ => false

/-- Keys of the function requests of a trace. -/
def fnKeys (reqs : List Req) : List Nat :=
  (reqs.filter (fun r => r.isFnReq)).map Req.key

/-- Keys of the variable requests of a trace. -/
def varKeys (reqs : List Req) : List Nat :=
  (reqs.filter (fun r => !r.isFnReq)).map Req.key

/-- A trace is family-consistent when no entity key is requested both as a
function and as a variable; in the program an entity kind determines which
entry points can request it. -/
def familiesConsistent (reqs : List Req) : Bool :=
  (fnKeys reqs).all (fun k => !(varKeys reqs).contains k)

/-- All keys requested by a trace. -/
def requestedKeys (reqs : List Req) : List Nat :=
  reqs.map Req.key

/-- Follow the splice map from a symbol identity, fuel-bounded: after a
definition upgrade the uses of the stale symbol were replaced by the fresh
symbol, so a handle is read through the splice map. -/
def resolveF : Nat → List (Nat × Nat) → Nat → Nat
  | 0, _, i => i
  | fuel + 1, f, i =>
      match lookupN i f with
      | none => i
      | some b => resolveF fuel f b

/-- The live symbols of a state that belong to an entity key. -/
def liveFor (st : CacheSt) (k : Nat) : List Sym :=
  st.syms.filter (fun s => s.key == k)

/-- Both caches of a state, viewed as one entity-key map; the family
consistency of a trace keeps their key sets disjoint. -/
def allCache (st : CacheSt) : List (Nat × Nat) :=
  st.fnCache ++ st.varCache

/-- A handle with base identity i refers, after all splices, to the symbol
r: either i was never replaced, or its uses were spliced to a newer symbol
and the chain continues there. -/
inductive Resolves (f : List (Nat × Nat)) : Nat → Nat → Prop where
  | final (i : Nat) (h : lookupN i f = none) : Resolves f i i
  | step (i b r : Nat) (h : lookupN i f = some b) (hr : Resolves f b r) :
      Resolves f i r

/-- Example trace for the cache: a variable forward-declared then defined
at an upgraded type, and a function requested twice, then the variable
requested once more. -/
def exReqs : List Req :=
  [Req.var 0 none 5, Req.var 0 (some 7) 5, Req.fn 1 3, Req.fn 1 3,
    Req.var 0 none 5]

/-- The state the example trace reaches. -/
def exSt : CacheSt :=
  { nextId := 3,
    syms := [{ id := 1, key := 0, ty := 7 }, { id := 2, key := 1, ty := 3 }],
    forward := [(0, 1)],
    fnCache := [(1, 2)],
    varCache := [(0, 1)],
    log := [(0, 0), (0, 1), (1, 2), (1, 2), (0, 1)] }

/-- Invariant of the lowering state: symbol identities are fresh and
distinct, the caches and the live symbols are in bijection, the splice
map leads from strictly older erased symbols to newer ones and never
starts at a live symbol, and every logged handle resolves through the
splice map to the symbol currently cached for its key. -/
structure CacheInv (st : CacheSt) : Prop where
  ids_lt : ∀ s ∈ st.syms, s.id < st.nextId
  ids_nodup : (st.syms.map Sym.id).Nodup
  keys_nodup : ((allCache st).map Prod.fst).Nodup
  syms_cached : ∀ s ∈ st.syms, lookupN s.key (allCache st) = some s.id
  cache_live : ∀ p ∈ allCache st, ∃ s ∈ st.syms, s.id = p.2 ∧ s.key = p.1
  fwd_bound : ∀ p ∈ st.forward, p.1 < p.2 ∧ p.2 < st.nextId
  fwd_not_live : ∀ p ∈ st.forward, ∀ s ∈ st.syms, s.id ≠ p.1
  log_lt : ∀ p ∈ st.log, p.2 < st.nextId
  log_resolves : ∀ p ∈ st.log,
    ∃ i, lookupN p.1 (allCache st) = some i ∧ Resolves st.forward p.2 i

/-! ## Source file emission and initializer synthesis (emitSourceFile) -/

/-- The instructions of the synthesized entry function and initializers
that matter at this level. -/
inductive Instr where
  | storeArg (n : Nat)
  | callClassInit
  | callCategoryInit
  | callTopLevel
  | retVal (v : Nat)
  | retVoid
deriving DecidableEq

/-- An IR function body as a list of basic blocks, each a list of
instructions. -/
structure Fn where
  blocks : List (List Instr)
deriving DecidableEq

/-- isTrivialGlobalInit: exactly one basic block holding exactly one
instruction; the source asserts that this lone instruction is a return. -/
def isTrivialGlobalInit (fn : Fn) : Bool :=
  match fn.blocks with
  | [entry] => entry.length == 1
  | _ => false

/-- The kind of a source file. -/
inductive SourceFileKind where
  | mainKind
  | replKind
  | libraryKind
deriving DecidableEq

/-- Modelled from the spec: SourceFile::isScriptMode is defined outside
this file; the entry-point units are the program's main unit and the
interactive-session unit. -/
def isScriptMode (k : SourceFileKind) : Bool :=
  k == SourceFileKind.mainKind || k == SourceFileKind.replKind

/-- The outputs of emitSourceFile that the initializer-synthesis claims
are about: the body of the synthesized entry function when one is built,
the synthesized per-unit initializer when one survives, whether the
lowered top-level function is still in the module, and the entries added
to the global constructor table as priority paired with initializer
body. -/
structure SourceFileResult where
  mainBody : Option (List Instr)
  initFn : Option Fn
  topLevelKept : Bool
  ctorEntries : List (Nat × Fn)
deriving DecidableEq

/-- The body of the library initializer: call the top-level code, then
return. -/
def wrapperInitFn : Fn :=
  { blocks := [[Instr.callTopLevel, Instr.retVoid]] }

/-- emitSourceFile, restricted to entry/initializer synthesis.  In script
mode a main function is emitted: argument marshaling stores, then (for
immediate-mode interop) a call to the class initializer when the pending
class list is non-empty followed by a call to the category initializer
when the pending category list is non-empty, then a call to the top-level
code when present, then return of status zero.  When no top-level function
exists nothing further happens.  For a non-entry-point unit a wrapper
initializer calling the top-level code is created; when the top-level
body is trivial both the wrapper and the top-level function are erased and
no constructor entry is made, otherwise one constructor entry with
priority one is appended.  Entry-point units get neither wrapper nor
constructor entry. -/
def emitSourceFile (kind : SourceFileKind) (topLevelCode : Option Fn)
    (objcInterop useJIT : Bool) (objcClasses objcCategoryDecls : List Nat) :
    SourceFileResult :=
  let mainBody : Option (List Instr) :=
    if isScriptMode kind then
      some ([Instr.storeArg 0, Instr.storeArg 1] ++
        (if objcInterop && useJIT then
          (if objcClasses.isEmpty then [] else [Instr.callClassInit]) ++
            (if objcCategoryDecls.isEmpty then [] else
              [Instr.callCategoryInit])
         else []) ++
        (match topLevelCode with
          | some _ => [Instr.callTopLevel]
          | none => []) ++
        [Instr.retVal 0])
    else none
  match topLevelCode with
  | none =>
      { mainBody := mainBody, initFn := none, topLevelKept := false,
        ctorEntries := [] }
  | some tlc =>
      if kind = SourceFileKind.mainKind ∨ kind = SourceFileKind.replKind then
        { mainBody := mainBody, initFn := none, topLevelKept := true,
          ctorEntries := [] }
      else if isTrivialGlobalInit tlc then
        { mainBody := mainBody, initFn := none, topLevelKept := false,
          ctorEntries := [] }
      else
        { mainBody := mainBody, initFn := some wrapperInitFn,
          topLevelKept := true, ctorEntries := [(1, wrapperInitFn)] }

/-! ## Metadata addressing (getAddrOfTypeMetadata) -/

/-- Storage types used for type metadata variables. -/
inductive STy where
  | typeMetadataPatternStruct
  | typeMetadataStruct
  | fullHeapMetadataStruct
  | fullTypeMetadataStruct
  | ptr (t : STy)
  | otherSTy (n : Nat)
deriving DecidableEq

/-- The shape of a concrete type as getAddrOfTypeMetadata classifies it: a
class type whose metadata is or is not known to be Swift metadata, a bound
generic class type, or any other (non-class) type. -/
inductive MTy where
  | classTy (hasKnownSwiftMetadata : Bool)
  | boundGenericClassTy
  | nonClassTy (n : Nat)
deriving DecidableEq

/-- The address returned for a metadata request: either the raw variable
address (recording the variable's storage type) or an in-bounds element
access at the given adjustment index off the raw address. -/
inductive MetaAddr where
  | raw (ty : STy)
  | adjusted (ty : STy) (index : Nat)
deriving DecidableEq

/-- getAddrOfTypeMetadata: select default storage type and word
adjustment from the layout class, overriding both for the indirect form;
fetch or create the variable at the definition type when one is supplied
and at the default type otherwise; and, unless a definition type was
supplied, return the address adjusted by an in-bounds element access when
the adjustment is non-zero. -/
def getAddrOfTypeMetadata (t : MTy) (isIndirect isPattern : Bool)
    (storageType : Option STy) : MetaAddr :=
  let sel : STy × Nat :=
    if isPattern then (STy.typeMetadataPatternStruct, 0)
    else
      match t with
      | .classTy false => (STy.typeMetadataStruct, 0)
      | .classTy true => (STy.fullHeapMetadataStruct, 2)
      | .boundGenericClassTy => (STy.fullHeapMetadataStruct, 2)
      | .nonClassTy _ => (STy.fullTypeMetadataStruct, 1)
  let sel : STy × Nat :=
    if isIndirect then (STy.ptr sel.1, 0) else sel
  let varTy : STy :=
    match storageType with
    | some s => s
    | none => sel.1
  if sel.2 ≠ 0 ∧ storageType = none then MetaAddr.adjusted varTy sel.2
  else MetaAddr.raw varTy

/-- The word adjustment getAddrOfTypeMetadata selects for a layout class,
before the address is formed. -/
def metadataAdjustmentIndex (t : MTy) (isIndirect isPattern : Bool) : Nat :=
  let sel : STy × Nat :=
    if isPattern then (STy.typeMetadataPatternStruct, 0)
    else
      match t with
      | .classTy false => (STy.typeMetadataStruct, 0)
      | .classTy true => (STy.fullHeapMetadataStruct, 2)
      | .boundGenericClassTy => (STy.fullHeapMetadataStruct, 2)
      | .nonClassTy _ => (STy.fullTypeMetadataStruct, 1)
  if isIndirect then 0 else sel.2

/-- The default storage type getAddrOfTypeMetadata selects for a layout
class, a pointer type thereto for the indirect form. -/
def metadataDefaultTy (t : MTy) (isIndirect isPattern : Bool) : STy :=
  let sel : STy × Nat :=
    if isPattern then (STy.typeMetadataPatternStruct, 0)
    else
      match t with
      | .classTy false => (STy.typeMetadataStruct, 0)
      | .classTy true => (STy.fullHeapMetadataStruct, 2)
      | .boundGenericClassTy => (STy.fullHeapMetadataStruct, 2)
      | .nonClassTy _ => (STy.fullTypeMetadataStruct, 1)
  if isIndirect then STy.ptr sel.1 else sel.1

/-! ## Extensions and categories (emitExtension) -/

/-- A protocol conformance: whether the conformed protocol is visible to
the host runtime, and the conformances it inherits. -/
inductive ConfNode where
  | mk (protoIsObjC : Bool) (inherited : List ConfNode)

mutual
/-- protocolExtensionRequiresCategory: the protocol itself is
runtime-visible, or some inherited conformance requires a category. -/
def protocolExtensionRequiresCategory : ConfNode → Bool
  | .mk objc inherited =>
      objc || anyInheritedRequiresCategory inherited

def anyInheritedRequiresCategory : List ConfNode → Bool
  | [] => false
  | c :: cs =>
      protocolExtensionRequiresCategory c || anyInheritedRequiresCategory cs
end

/-- Transitive runtime visibility of a conformance: the conformed protocol
is runtime-visible, or some inherited conformance reaches a
runtime-visible protocol. -/
inductive ConfReachesObjC : ConfNode → Prop where
  | direct (inherited : List ConfNode) : ConfReachesObjC (.mk true inherited)
  | inherited (objc : Bool) (inh : List ConfNode) (c : ConfNode)
      (hmem : c ∈ inh) (hc : ConfReachesObjC c) :
      ConfReachesObjC (.mk objc inh)

/-- A member of a class extension, abstracted to whether its kind requires
a dynamic-dispatch entry point (requiresObjCMethodDescriptor,
requiresObjCPropertyDescriptor, requiresObjCSubscriptDescriptor are
computed elsewhere and consumed as flags). -/
inductive ExtMember where
  | funcMember (needsEntry : Bool)
  | constructorMember (needsEntry : Bool)
  | varMember (needsEntry : Bool)
  | subscriptMember (needsEntry : Bool)
  | otherMember
deriving DecidableEq

/-- An extension of a class: whether the extended class is runtime
visible, the conformances the extension declares, and its members. -/
structure ExtensionInfo where
  origClassIsObjC : Bool
  conformances : List ConfNode
  members : List ExtMember

/-- The member scan of emitExtension: a function or constructor requiring
a method descriptor, a property requiring a property descriptor, or a
subscript requiring a subscript descriptor. -/
def memberNeedsEntry : ExtMember → Bool
  | .funcMember b => b
  | .constructorMember b => b
  | .varMember b => b
  | .subscriptMember b => b
  | .otherMember => false

/-- The needsCategory computation of emitExtension: the extended class is
runtime-visible, or some conformance requires a category, or some member
requires a dynamic entry point. -/
def extensionNeedsCategory (e : ExtensionInfo) : Bool :=
  e.origClassIsObjC ||
    anyInheritedRequiresCategory e.conformances ||
    e.members.any memberNeedsEntry

/-- The category-registration effect of emitExtension on the pending
interop lists: when the extension needs a category, exactly one category
record and one category declaration are appended; otherwise the lists are
unchanged. -/
def emitExtension (e : ExtensionInfo) (objcCategories : List Nat)
    (objcCategoryDecls : List ExtensionInfo) :
    List Nat × List ExtensionInfo :=
  if extensionNeedsCategory e then
    (objcCategories ++ [0], objcCategoryDecls ++ [e])
  else
    (objcCategories, objcCategoryDecls)

/-- An extension of a non-visible class whose conformance reaches a
runtime-visible protocol only through an inherited conformance. -/
def exExtInherited : ExtensionInfo :=
  { origClassIsObjC := false,
    conformances := [ConfNode.mk false [ConfNode.mk true []]],
    members := [ExtMember.funcMember false] }

/-- An extension with no runtime-visible class, conformance, or member. -/
def exExtPlain : ExtensionInfo :=
  { origClassIsObjC := false,
    conformances := [ConfNode.mk false []],
    members := [ExtMember.funcMember false] }

/-! ## Formal getter and setter types (getTypeOfGetter, getTypeOfSetter) -/

/-- Formal (source-level) types as the getter and setter derivation builds
them: opaque object types, the empty tuple, function types, lvalue types,
and polymorphic function types over a generic parameter clause. -/
inductive FTy where
  | obj (n : Nat)
  | empty
  | fn (a r : FTy)
  | lvalue (a : FTy)
  | polyFn (params : Nat) (a r : FTy)
deriving DecidableEq

/-- Declaration context kinds, as addOwnerArgument switches over them. -/
inductive DCKind where
  | moduleKind
  | fileUnit
  | abstractClosureExpr
  | topLevelCodeDecl
  | abstractFunctionDecl
  | initializerKind
  | extensionDecl
  | nominalTypeDecl
deriving DecidableEq

/-- What the owner-argument computation consults about a declaration's
owning context: its declared type, whether that type has reference
semantics, and its generic parameter clause when one is present. -/
structure OwnerInfo where
  declaredTypeInContext : FTy
  hasReferenceSemantics : Bool
  genericParamsOfContext : Option Nat
deriving DecidableEq

/-- A variable or subscript declaration, abstracted to what the formal
type derivation consults. -/
structure VDecl where
  ctxKind : DCKind
  owner : OwnerInfo
  isSubscriptDecl : Bool
  indicesType : FTy
  elementType : FTy
  declType : FTy
deriving DecidableEq

/-- Abstract calling conventions selected here. -/
inductive AbstractCC where
  | freestanding
  | method
deriving DecidableEq

/-- A formal signature: lowered formal type, calling convention, and
uncurry level. -/
structure FormalType where
  formalType : FTy
  cc : AbstractCC
  uncurryLevel : Nat
deriving DecidableEq

/-- The object type of the declaration: a subscript's element type, or the
declaration's own type. -/
def getObjectType (v : VDecl) : FTy :=
  if v.isSubscriptDecl then v.elementType else v.declType

/-- addOwnerArgument on the declaration context: the receiver is the
declared type of the context, wrapped as an lvalue when that type lacks
reference semantics, and the function type is polymorphic when the
context has generic parameters. -/
def addOwnerArgumentDC (o : OwnerInfo) (resultType : FTy) : FTy :=
  let argType := o.declaredTypeInContext
  let argType :=
    if !o.hasReferenceSemantics then FTy.lvalue argType else argType
  match o.genericParamsOfContext with
  | some ps => FTy.polyFn ps argType resultType
  | none => FTy.fn argType resultType

/-- addOwnerArgument on the declaration: freestanding contexts leave the
type alone; extension and nominal type contexts prepend the receiver,
bump the uncurry level and select the method convention.  Returns the
convention with the updated formal type and uncurry level. -/
def addOwnerArgument (v : VDecl) (resultType : FTy) (uncurryLevel : Nat) :
    AbstractCC × FTy × Nat :=
  match v.ctxKind with
  | .moduleKind => (AbstractCC.freestanding, resultType, uncurryLevel)
  | .fileUnit => (AbstractCC.freestanding, resultType, uncurryLevel)
  | .abstractClosureExpr => (AbstractCC.freestanding, resultType, uncurryLevel)
  | .topLevelCodeDecl => (AbstractCC.freestanding, resultType, uncurryLevel)
  | .abstractFunctionDecl => (AbstractCC.freestanding, resultType, uncurryLevel)
  | .initializerKind => (AbstractCC.freestanding, resultType, uncurryLevel)
  | .extensionDecl =>
      (AbstractCC.method, addOwnerArgumentDC v.owner resultType,
        uncurryLevel + 1)
  | .nominalTypeDecl =>
      (AbstractCC.method, addOwnerArgumentDC v.owner resultType,
        uncurryLevel + 1)

/-- addIndexArgument: a subscript prepends its index type and bumps the
uncurry level. -/
def addIndexArgument (v : VDecl) (formalType : FTy) (uncurryLevel : Nat) :
    FTy × Nat :=
  if v.isSubscriptDecl then (FTy.fn v.indicesType formalType, uncurryLevel + 1)
  else (formalType, uncurryLevel)

/-- getTypeOfGetter: start from the empty-argument function onto the
object type, thread the index argument, then the owner argument. -/
def getTypeOfGetter (v : VDecl) : FormalType :=
  let formalType := FTy.fn FTy.empty (getObjectType v)
  let step := addIndexArgument v formalType 0
  let fin := addOwnerArgument v step.1 step.2
  { formalType := fin.2.1, cc := fin.1, uncurryLevel := fin.2.2 }

/-- getTypeOfSetter: start from the function taking the object type onto
the empty tuple, thread the index argument, then the owner argument. -/
def getTypeOfSetter (v : VDecl) : FormalType :=
  let argType := getObjectType v
  let formalType := FTy.fn argType FTy.empty
  let step := addIndexArgument v formalType 0
  let fin := addOwnerArgument v step.1 step.2
  { formalType := fin.2.1, cc := fin.1, uncurryLevel := fin.2.2 }

/-- Whether the declaration is a member of a nominal type or extension. -/
def isMemberContext (k : DCKind) : Bool :=
  k == DCKind.extensionDecl || k == DCKind.nominalTypeDecl

/-- A computed property of a value-semantics nominal type. -/
def exVDecl : VDecl :=
  { ctxKind := DCKind.nominalTypeDecl,
    owner := { declaredTypeInContext := FTy.obj 3,
               hasReferenceSemantics := false,
               genericParamsOfContext := none },
    isSubscriptDecl := false, indicesType := FTy.obj 4,
    elementType := FTy.obj 5, declType := FTy.obj 6 }

/-! ## Global string uniquing (getAddrOfGlobalString) -/

/-- A created string global: its identity, whether it is a constant, its
linkage, its unnamed-address flag, and its byte contents. -/
structure StrGlobal where
  id : Nat
  isConstant : Bool
  linkage : Linkage
  unnamedAddr : Bool
  bytes : List Nat
deriving DecidableEq

/-- The address of the first byte of a string global: an in-bounds element
access at indices zero, zero. -/
structure StrAddr where
  globalId : Nat
  idx0 : Nat
  idx1 : Nat
deriving DecidableEq

/-- String-table lookup, keyed by byte contents (embedded null bytes
allowed). -/
def lookupStr (k : List Nat) : List (List Nat × StrAddr) → Option StrAddr
  | [] => none
  | p :: ps => if p.1 = k then some p.2 else lookupStr k ps

/-- State of the global string cache: the interning table and the string
globals created so far. -/
structure StrSt where
  nextId : Nat
  table : List (List Nat × StrAddr)
  globals : List StrGlobal
deriving DecidableEq

/-- The empty global string state. -/
def initStrSt : StrSt := { nextId := 0, table := [], globals := [] }

/-- getAddrOfGlobalString: return the cached address when the contents
were seen before; otherwise create one private-linkage, unnamed-address
constant global holding the data plus a trailing null terminator, cache
the in-bounds address of its first byte, and return it. -/
def getAddrOfGlobalString (data : List Nat) (st : StrSt) : StrAddr × StrSt :=
  match lookupStr data st.table with
  | some entry => (entry, st)
  | none =>
      let g : StrGlobal :=
        { id := st.nextId, isConstant := true,
          linkage := Linkage.privateLinkage, unnamedAddr := true,
          bytes := data ++ [0] }
      let address : StrAddr := { globalId := g.id, idx0 := 0, idx1 := 0 }
      (address,
        { nextId := st.nextId + 1,
          table := st.table ++ [(data, address)],
          globals := st.globals ++ [g] })

/-! ## Helper lemmas on association lookup, update, and splice resolution -/

theorem lookupN_append (k : Nat) (xs ys : List (Nat × Nat)) :
    lookupN k (xs ++ ys) =
      match lookupN k xs with
      | some v => some v
      | none => lookupN k ys := by
  induction xs with
  | nil => simp [lookupN]
  | cons p ps ih =>
      by_cases h : p.1 = k <;> simp [lookupN, h, ih]

theorem lookupN_append_some_left {k v : Nat} {xs : List (Nat × Nat)}
    (ys : List (Nat × Nat)) (h : lookupN k xs = some v) :
    lookupN k (xs ++ ys) = some v := by
  rw [lookupN_append, h]

theorem lookupN_append_none_left {k : Nat} {xs : List (Nat × Nat)}
    (ys : List (Nat × Nat)) (h : lookupN k xs = none) :
    lookupN k (xs ++ ys) = lookupN k ys := by
  rw [lookupN_append, h]

theorem lookupN_mem {k v : Nat} :
    ∀ {l : List (Nat × Nat)}, lookupN k l = some v → (k, v) ∈ l := by
  intro l
  induction l with
  | nil => intro h; simp [lookupN] at h
  | cons p ps ih =>
      intro h
      obtain ⟨a, b⟩ := p
      by_cases hp : a = k
      · simp [lookupN, hp] at h
        simp [hp, h]
      · simp [lookupN, hp] at h
        exact List.mem_cons_of_mem _ (ih h)

theorem lookupN_eq_none {k : Nat} {l : List (Nat × Nat)} :
    lookupN k l = none ↔ ∀ p ∈ l, p.1 ≠ k := by
  induction l with
  | nil => simp [lookupN]
  | cons p ps ih =>
      by_cases hp : p.1 = k <;> simp [lookupN, hp, ih]

theorem lookupN_singleton (k a b : Nat) :
    lookupN k [(a, b)] = if a = k then some b else none := by
  simp [lookupN]

theorem lookupN_updateN_self {k i : Nat} (v : Nat) :
    ∀ {l : List (Nat × Nat)}, lookupN k l = some i →
      lookupN k (updateN k v l) = some v := by
  intro l
  induction l with
  | nil => intro h; simp [lookupN] at h
  | cons p ps ih =>
      intro h
      by_cases hp : p.1 = k
      · simp [updateN, hp, lookupN]
      · simp [lookupN, hp] at h
        simp [updateN, hp, lookupN]
        exact ih h

theorem lookupN_updateN_other {k k' : Nat} (v : Nat) (hne : k' ≠ k) :
    ∀ (l : List (Nat × Nat)), lookupN k' (updateN k v l) = lookupN k' l := by
  intro l
  induction l with
  | nil => simp [updateN]
  | cons p ps ih =>
      obtain ⟨a, b⟩ := p
      by_cases ha : a = k
      · subst ha
        simp [updateN, lookupN, Ne.symm hne]
      · by_cases ha' : a = k' <;> simp [updateN, ha, lookupN, ha', ih, hne]

theorem mem_updateN {p : Nat × Nat} {k v : Nat} :
    ∀ {l : List (Nat × Nat)}, p ∈ updateN k v l → p = (k, v) ∨ p ∈ l := by
  intro l
  induction l with
  | nil => intro h; simp [updateN] at h
  | cons q qs ih =>
      intro h
      by_cases hq : q.1 = k
      · simp [updateN, hq] at h
        rcases h with h | h
        · left; exact h
        · right; simp [h]
      · simp [updateN, hq] at h
        rcases h with h | h
        · right; simp [h]
        · rcases ih h with h' | h'
          · left; exact h'
          · right; simp [h']

theorem updateN_keys {k i : Nat} (v : Nat) :
    ∀ {l : List (Nat × Nat)}, lookupN k l = some i →
      (updateN k v l).map Prod.fst = l.map Prod.fst := by
  intro l
  induction l with
  | nil => intro h; simp [lookupN] at h
  | cons p ps ih =>
      intro h
      by_cases hp : p.1 = k
      · simp [updateN, hp]
      · simp [lookupN, hp] at h
        simp [updateN, hp, ih h]

theorem mem_updateN_ne {p : Nat × Nat} {k v : Nat} {l : List (Nat × Nat)}
    (hn : (l.map Prod.fst).Nodup) (h : p ∈ updateN k v l) :
    p = (k, v) ∨ (p ∈ l ∧ p.1 ≠ k) := by
  induction l with
  | nil => simp [updateN] at h
  | cons q qs ih =>
      obtain ⟨a, b⟩ := q
      rw [List.map_cons, List.nodup_cons] at hn
      by_cases ha : a = k
      · subst ha
        simp only [updateN, if_pos rfl] at h
        rcases List.mem_cons.mp h with h | h
        · left; exact h
        · right
          refine ⟨List.mem_cons_of_mem _ h, ?_⟩
          intro hk
          apply hn.1
          have hmm : p.1 ∈ qs.map Prod.fst := List.mem_map_of_mem Prod.fst h
          rwa [hk] at hmm
      · simp only [updateN, if_neg ha] at h
        rcases List.mem_cons.mp h with h | h
        · right
          refine ⟨by rw [h]; exact List.mem_cons_self _ _, ?_⟩
          rw [h]
          exact ha
        · rcases ih hn.2 h with h' | h'
          · left; exact h'
          · right; exact ⟨List.mem_cons_of_mem _ h'.1, h'.2⟩

theorem resolves_final_of_not_dom {f : List (Nat × Nat)} {i : Nat}
    (h : ∀ p ∈ f, p.1 ≠ i) : Resolves f i i :=
  Resolves.final i (lookupN_eq_none.mpr h)

theorem Resolves.extend_ne {f : List (Nat × Nat)} {old new : Nat} :
    ∀ {j r : Nat}, Resolves f j r → r ≠ old →
      Resolves (f ++ [(old, new)]) j r := by
  intro j r h
  induction h with
  | final i hi =>
      intro hne
      refine Resolves.final i ?_
      rw [lookupN_append_none_left _ hi, lookupN_singleton]
      simp [Ne.symm hne]
  | step i b r hi _ ih =>
      intro hne
      exact Resolves.step i b r (lookupN_append_some_left _ hi) (ih hne)

theorem Resolves.extend_redirect {f : List (Nat × Nat)} {old new : Nat}
    (hnew : lookupN new (f ++ [(old, new)]) = none) :
    ∀ {j r : Nat}, Resolves f j r → r = old →
      Resolves (f ++ [(old, new)]) j new := by
  intro j r h
  induction h with
  | final i hi =>
      intro heq
      subst heq
      refine Resolves.step i new new ?_ (Resolves.final new hnew)
      rw [lookupN_append_none_left _ hi, lookupN_singleton]
      simp
  | step i b r hi _ ih =>
      intro heq
      exact Resolves.step i b new (lookupN_append_some_left _ hi) (ih heq)

theorem resolveF_of_resolves {N : Nat} {f : List (Nat × Nat)}
    (hb : ∀ p ∈ f, p.1 < p.2 ∧ p.2 < N) {i r : Nat}
    (h : Resolves f i r) : ∀ fuel, N ≤ fuel + i → resolveF fuel f i = r := by
  induction h with
  | final i hi =>
      intro fuel _
      cases fuel <;> simp [resolveF, hi]
  | step i b r hi _ ih =>
      intro fuel hfuel
      have hmem := lookupN_mem hi
      have hbd := hb _ hmem
      match fuel with
      | 0 => omega
      | g + 1 =>
          simp only [resolveF, hi]
          exact ih g (by omega)

theorem length_eq_one_of_nodup {α : Type} {l : List α} {s : α}
    (hn : l.Nodup) (hs : s ∈ l) (hall : ∀ x ∈ l, x = s) : l.length = 1 := by
  match l, hn, hs with
  | [x], _, _ => rfl
  | x :: y :: rest, hn, hs =>
      exfalso
      have hx : x = s := hall x (by simp)
      have hy : y = s := hall y (by simp)
      simp [hx, hy] at hn

theorem lookupN_mid_ne {k k' v : Nat} (a b : List (Nat × Nat)) (h : k' ≠ k) :
    lookupN k' (a ++ (k, v) :: b) = lookupN k' (a ++ b) := by
  rw [lookupN_append, lookupN_append]
  cases ha : lookupN k' a <;> simp [lookupN, Ne.symm h]

theorem lookupN_mid_self {k v : Nat} (a b : List (Nat × Nat))
    (ha : lookupN k a = none) : lookupN k (a ++ (k, v) :: b) = some v := by
  rw [lookupN_append, ha]
  simp [lookupN]

theorem lookupN_snoc_ne {k k' v : Nat} (a : List (Nat × Nat)) (h : k' ≠ k) :
    lookupN k' (a ++ [(k, v)]) = lookupN k' a := by
  have hm := lookupN_mid_ne (k := k) (v := v) a [] h
  simpa using hm

theorem not_mem_keys_of_lookupN_none {k : Nat} {l : List (Nat × Nat)}
    (h : lookupN k l = none) : k ∉ l.map Prod.fst := by
  intro hk
  obtain ⟨p, hp, hpk⟩ := List.mem_map.mp hk
  exact (lookupN_eq_none.mp h p hp) hpk

theorem live_resolves_self {st : CacheSt} (hinv : CacheInv st) {s : Sym}
    (hs : s ∈ st.syms) : Resolves st.forward s.id s.id :=
  resolves_final_of_not_dom
    (fun p hp => Ne.symm (hinv.fwd_not_live p hp s hs))

theorem sym_inj {st : CacheSt} (hinv : CacheInv st) {s s' : Sym}
    (hs : s ∈ st.syms) (hs' : s' ∈ st.syms) (h : s.id = s'.id) : s = s' :=
  List.inj_on_of_nodup_map hinv.ids_nodup hs hs' h

theorem lookupN_snoc_self {k v : Nat} (a : List (Nat × Nat))
    (h : lookupN k a = none) : lookupN k (a ++ [(k, v)]) = some v := by
  have hm := lookupN_mid_self (v := v) a [] h
  simpa using hm

theorem lookupN_append_congr_right {k : Nat} (a : List (Nat × Nat))
    {b b' : List (Nat × Nat)} (h : lookupN k b = lookupN k b') :
    lookupN k (a ++ b) = lookupN k (a ++ b') := by
  rw [lookupN_append, lookupN_append, h]

theorem cacheInv_log_append {st : CacheSt} (hinv : CacheInv st) {k i : Nat}
    (hall : lookupN k (allCache st) = some i) :
    CacheInv { st with log := st.log ++ [(k, i)] } := by
  obtain ⟨s, hs, hsid0, hskey0⟩ := hinv.cache_live _ (lookupN_mem hall)
  have hsid : s.id = i := hsid0
  have hskey : s.key = k := hskey0
  refine ⟨hinv.ids_lt, hinv.ids_nodup, hinv.keys_nodup, hinv.syms_cached,
    hinv.cache_live, hinv.fwd_bound, hinv.fwd_not_live, ?_, ?_⟩
  · intro p hp
    rcases List.mem_append.mp hp with h | h
    · exact hinv.log_lt p h
    · have hpe : p = (k, i) := by simpa using h
      subst hpe
      exact hsid ▸ hinv.ids_lt s hs
  · intro p hp
    rcases List.mem_append.mp hp with h | h
    · exact hinv.log_resolves p h
    · have hpe : p = (k, i) := by simpa using h
      subst hpe
      refine ⟨i, hall, ?_⟩
      show Resolves st.forward i i
      rw [← hsid]
      exact live_resolves_self hinv hs

theorem cacheInv_fn_create {st : CacheSt} (hinv : CacheInv st) {k ty : Nat}
    (hcf : lookupN k st.fnCache = none)
    (hcv : lookupN k st.varCache = none) :
    CacheInv { st with
      nextId := st.nextId + 1,
      syms := st.syms ++ [{ id := st.nextId, key := k, ty := ty }],
      fnCache := st.fnCache ++ [(k, st.nextId)],
      log := st.log ++ [(k, st.nextId)] } := by
  have hnotin : lookupN k (allCache st) = none := by
    show lookupN k (st.fnCache ++ st.varCache) = none
    rw [lookupN_append_none_left _ hcf]
    exact hcv
  have hAC : (st.fnCache ++ [(k, st.nextId)]) ++ st.varCache =
      st.fnCache ++ (k, st.nextId) :: st.varCache := by simp
  refine ⟨?_, ?_, ?_, ?_, ?_, ?_, ?_, ?_, ?_⟩
  · intro s hs
    rcases List.mem_append.mp hs with h | h
    · exact Nat.lt_succ_of_lt (hinv.ids_lt s h)
    · have hse : s = { id := st.nextId, key := k, ty := ty } := by simpa using h
      rw [hse]
      exact Nat.lt_succ_self _
  · show ((st.syms ++ [({ id := st.nextId, key := k, ty := ty } : Sym)]).map
      Sym.id).Nodup
    rw [List.map_append]
    refine List.Nodup.append hinv.ids_nodup (by simp) ?_
    intro x hx hx'
    obtain ⟨s, hs, rfl⟩ := List.mem_map.mp hx
    have hx'' : s.id = st.nextId := by simpa using hx'
    exact absurd hx'' (Nat.ne_of_lt (hinv.ids_lt s hs))
  · show ((allCache _).map Prod.fst).Nodup
    show (((st.fnCache ++ [(k, st.nextId)]) ++ st.varCache).map
      Prod.fst).Nodup
    rw [hAC, List.map_append, List.map_cons, List.nodup_middle,
      List.nodup_cons]
    constructor
    · intro hk
      rcases List.mem_append.mp hk with h | h
      · exact not_mem_keys_of_lookupN_none hcf h
      · exact not_mem_keys_of_lookupN_none hcv h
    · rw [← List.map_append]
      exact hinv.keys_nodup
  · intro s hs
    show lookupN s.key ((st.fnCache ++ [(k, st.nextId)]) ++ st.varCache) =
      some s.id
    rw [hAC]
    rcases List.mem_append.mp hs with h | h
    · have hkey : s.key ≠ k := by
        intro he
        have hc2 := hinv.syms_cached s h
        rw [he] at hc2
        rw [hc2] at hnotin
        exact Option.noConfusion hnotin
      rw [lookupN_mid_ne _ _ hkey]
      exact hinv.syms_cached s h
    · have hse : s = { id := st.nextId, key := k, ty := ty } := by simpa using h
      rw [hse]
      exact lookupN_mid_self _ _ hcf
  · intro p hp
    have hp' : p ∈ st.fnCache ++ (k, st.nextId) :: st.varCache := by
      rw [← hAC]
      exact hp
    rcases List.mem_append.mp hp' with h | h
    · obtain ⟨s, hs, hid, hkey⟩ := hinv.cache_live p (List.mem_append_left _ h)
      exact ⟨s, List.mem_append_left _ hs, hid, hkey⟩
    · rcases List.mem_cons.mp h with he | h2
      · refine ⟨{ id := st.nextId, key := k, ty := ty }, by simp, ?_, ?_⟩
        · rw [he]
        · rw [he]
      · obtain ⟨s, hs, hid, hkey⟩ :=
          hinv.cache_live p (List.mem_append_right _ h2)
        exact ⟨s, List.mem_append_left _ hs, hid, hkey⟩
  · intro p hp
    obtain ⟨h1, h2⟩ := hinv.fwd_bound p hp
    exact ⟨h1, Nat.lt_succ_of_lt h2⟩
  · intro p hp s hs
    rcases List.mem_append.mp hs with h | h
    · exact hinv.fwd_not_live p hp s h
    · have hse : s = { id := st.nextId, key := k, ty := ty } := by simpa using h
      rw [hse]
      have hlt : p.1 < st.nextId :=
        lt_trans (hinv.fwd_bound p hp).1 (hinv.fwd_bound p hp).2
      exact Ne.symm (Nat.ne_of_lt hlt)
  · intro p hp
    rcases List.mem_append.mp hp with h | h
    · exact Nat.lt_succ_of_lt (hinv.log_lt p h)
    · have hpe : p = (k, st.nextId) := by simpa using h
      rw [hpe]
      exact Nat.lt_succ_self _
  · intro p hp
    rcases List.mem_append.mp hp with h | h
    · obtain ⟨i', hold, hres⟩ := hinv.log_resolves p h
      have hpk : p.1 ≠ k := by
        intro he
        rw [he] at hold
        rw [hold] at hnotin
        exact Option.noConfusion hnotin
      refine ⟨i', ?_, hres⟩
      show lookupN p.1 ((st.fnCache ++ [(k, st.nextId)]) ++ st.varCache) =
        some i'
      rw [hAC, lookupN_mid_ne _ _ hpk]
      exact hold
    · have hpe : p = (k, st.nextId) := by simpa using h
      rw [hpe]
      refine ⟨st.nextId, ?_, ?_⟩
      · show lookupN k ((st.fnCache ++ [(k, st.nextId)]) ++ st.varCache) =
          some st.nextId
        rw [hAC]
        exact lookupN_mid_self _ _ hcf
      · refine resolves_final_of_not_dom ?_
        intro q hq
        exact Nat.ne_of_lt
          (lt_trans (hinv.fwd_bound q hq).1 (hinv.fwd_bound q hq).2)

theorem cacheInv_var_create {st : CacheSt} (hinv : CacheInv st) {k d : Nat}
    (hcf : lookupN k st.fnCache = none)
    (hcv : lookupN k st.varCache = none) :
    CacheInv { st with
      nextId := st.nextId + 1,
      syms := st.syms ++ [{ id := st.nextId, key := k, ty := d }],
      varCache := st.varCache ++ [(k, st.nextId)],
      log := st.log ++ [(k, st.nextId)] } := by
  have hnotin : lookupN k (allCache st) = none := by
    show lookupN k (st.fnCache ++ st.varCache) = none
    rw [lookupN_append_none_left _ hcf]
    exact hcv
  have hAC : st.fnCache ++ (st.varCache ++ [(k, st.nextId)]) =
      allCache st ++ [(k, st.nextId)] := by
    show _ = (st.fnCache ++ st.varCache) ++ [(k, st.nextId)]
    rw [List.append_assoc]
  refine ⟨?_, ?_, ?_, ?_, ?_, ?_, ?_, ?_, ?_⟩
  · intro s hs
    rcases List.mem_append.mp hs with h | h
    · exact Nat.lt_succ_of_lt (hinv.ids_lt s h)
    · have hse : s = { id := st.nextId, key := k, ty := d } := by simpa using h
      rw [hse]
      exact Nat.lt_succ_self _
  · show ((st.syms ++ [({ id := st.nextId, key := k, ty := d } : Sym)]).map
      Sym.id).Nodup
    rw [List.map_append]
    refine List.Nodup.append hinv.ids_nodup (by simp) ?_
    intro x hx hx'
    obtain ⟨s, hs, rfl⟩ := List.mem_map.mp hx
    have hx'' : s.id = st.nextId := by simpa using hx'
    exact absurd hx'' (Nat.ne_of_lt (hinv.ids_lt s hs))
  · show ((st.fnCache ++ (st.varCache ++ [(k, st.nextId)])).map
      Prod.fst).Nodup
    rw [hAC, List.map_append]
    refine List.Nodup.append hinv.keys_nodup (by simp) ?_
    intro x hx hx'
    have hxk : x = k := by simpa using hx'
    rw [hxk] at hx
    exact not_mem_keys_of_lookupN_none hnotin hx
  · intro s hs
    show lookupN s.key (st.fnCache ++ (st.varCache ++ [(k, st.nextId)])) =
      some s.id
    rw [hAC]
    rcases List.mem_append.mp hs with h | h
    · have hkey : s.key ≠ k := by
        intro he
        have hc2 := hinv.syms_cached s h
        rw [he] at hc2
        rw [hc2] at hnotin
        exact Option.noConfusion hnotin
      rw [lookupN_snoc_ne _ hkey]
      exact hinv.syms_cached s h
    · have hse : s = { id := st.nextId, key := k, ty := d } := by simpa using h
      rw [hse]
      exact lookupN_snoc_self _ hnotin
  · intro p hp
    have hp' : p ∈ allCache st ++ [(k, st.nextId)] := by
      rw [← hAC]
      exact hp
    rcases List.mem_append.mp hp' with h | h
    · obtain ⟨s, hs, hid, hkey⟩ := hinv.cache_live p h
      exact ⟨s, List.mem_append_left _ hs, hid, hkey⟩
    · have hpe : p = (k, st.nextId) := by simpa using h
      refine ⟨{ id := st.nextId, key := k, ty := d }, by simp, ?_, ?_⟩
      · rw [hpe]
      · rw [hpe]
  · intro p hp
    obtain ⟨h1, h2⟩ := hinv.fwd_bound p hp
    exact ⟨h1, Nat.lt_succ_of_lt h2⟩
  · intro p hp s hs
    rcases List.mem_append.mp hs with h | h
    · exact hinv.fwd_not_live p hp s h
    · have hse : s = { id := st.nextId, key := k, ty := d } := by simpa using h
      rw [hse]
      have hlt : p.1 < st.nextId :=
        lt_trans (hinv.fwd_bound p hp).1 (hinv.fwd_bound p hp).2
      exact Ne.symm (Nat.ne_of_lt hlt)
  · intro p hp
    rcases List.mem_append.mp hp with h | h
    · exact Nat.lt_succ_of_lt (hinv.log_lt p h)
    · have hpe : p = (k, st.nextId) := by simpa using h
      rw [hpe]
      exact Nat.lt_succ_self _
  · intro p hp
    rcases List.mem_append.mp hp with h | h
    · obtain ⟨i', hold, hres⟩ := hinv.log_resolves p h
      have hpk : p.1 ≠ k := by
        intro he
        rw [he] at hold
        rw [hold] at hnotin
        exact Option.noConfusion hnotin
      refine ⟨i', ?_, hres⟩
      show lookupN p.1 (st.fnCache ++ (st.varCache ++ [(k, st.nextId)])) =
        some i'
      rw [hAC, lookupN_snoc_ne _ hpk]
      exact hold
    · have hpe : p = (k, st.nextId) := by simpa using h
      rw [hpe]
      refine ⟨st.nextId, ?_, ?_⟩
      · show lookupN k (st.fnCache ++ (st.varCache ++ [(k, st.nextId)])) =
          some st.nextId
        rw [hAC]
        exact lookupN_snoc_self _ hnotin
      · refine resolves_final_of_not_dom ?_
        intro q hq
        exact Nat.ne_of_lt
          (lt_trans (hinv.fwd_bound q hq).1 (hinv.fwd_bound q hq).2)

theorem cacheInv_var_upgrade {st : CacheSt} (hinv : CacheInv st) {k i d : Nat}
    (hcf : lookupN k st.fnCache = none)
    (hcv : lookupN k st.varCache = some i) :
    CacheInv { st with
      nextId := st.nextId + 1,
      syms := st.syms.filter (fun s => s.id ≠ i) ++
        [{ id := st.nextId, key := k, ty := d }],
      forward := st.forward ++ [(i, st.nextId)],
      varCache := updateN k st.nextId st.varCache,
      log := st.log ++ [(k, st.nextId)] } := by
  have hall : lookupN k (allCache st) = some i := by
    show lookupN k (st.fnCache ++ st.varCache) = some i
    rw [lookupN_append_none_left _ hcf]
    exact hcv
  obtain ⟨s0, hs0mem, hs0id0, hs0key0⟩ := hinv.cache_live _ (lookupN_mem hall)
  have hs0id : s0.id = i := hs0id0
  have hs0key : s0.key = k := hs0key0
  have hi_lt : i < st.nextId := by
    rw [← hs0id]
    exact hinv.ids_lt s0 hs0mem
  have hvarnodup : (st.varCache.map Prod.fst).Nodup := by
    have h := hinv.keys_nodup
    have h2 : ((st.fnCache ++ st.varCache).map Prod.fst).Nodup := h
    rw [List.map_append] at h2
    exact (List.nodup_append.mp h2).2.1
  have hsameid : ∀ s' ∈ st.syms, s'.id = i → s' = s0 := by
    intro s' hs' he
    exact sym_inj hinv hs' hs0mem (by rw [he, hs0id])
  have hlooknew :
      lookupN k (st.fnCache ++ updateN k st.nextId st.varCache) =
        some st.nextId := by
    rw [lookupN_append_none_left _ hcf]
    exact lookupN_updateN_self _ hcv
  have hlookother : ∀ k', k' ≠ k →
      lookupN k' (st.fnCache ++ updateN k st.nextId st.varCache) =
        lookupN k' (allCache st) := by
    intro k' hk'
    exact lookupN_append_congr_right _ (lookupN_updateN_other _ hk' _)
  have hjfresh : ∀ q ∈ st.forward ++ [(i, st.nextId)], q.1 ≠ st.nextId := by
    intro q hq
    rcases List.mem_append.mp hq with h | h
    · exact Nat.ne_of_lt
        (lt_trans (hinv.fwd_bound q h).1 (hinv.fwd_bound q h).2)
    · have hqe : q = (i, st.nextId) := by simpa using h
      rw [hqe]
      exact Nat.ne_of_lt hi_lt
  have hjnone :
      lookupN st.nextId (st.forward ++ [(i, st.nextId)]) = none :=
    lookupN_eq_none.mpr hjfresh
  have hkeyne : ∀ s' ∈ st.syms, s'.id ≠ i → s'.key ≠ k := by
    intro s' hs' hne he
    have hc2 := hinv.syms_cached s' hs'
    rw [he, hall] at hc2
    exact hne (Option.some.inj hc2).symm
  have hmemchar : ∀ s', s' ∈ st.syms.filter (fun s => s.id ≠ i) →
      s' ∈ st.syms ∧ s'.id ≠ i := by
    intro s' h
    have h2 := List.mem_filter.mp h
    exact ⟨h2.1, by simpa using h2.2⟩
  refine ⟨?_, ?_, ?_, ?_, ?_, ?_, ?_, ?_, ?_⟩
  · intro s hs
    rcases List.mem_append.mp hs with h | h
    · exact Nat.lt_succ_of_lt (hinv.ids_lt s (hmemchar s h).1)
    · have hse : s = { id := st.nextId, key := k, ty := d } := by simpa using h
      rw [hse]
      exact Nat.lt_succ_self _
  · show (((st.syms.filter (fun s => s.id ≠ i)) ++
      [({ id := st.nextId, key := k, ty := d } : Sym)]).map Sym.id).Nodup
    rw [List.map_append]
    refine List.Nodup.append ?_ (by simp) ?_
    · exact List.Nodup.sublist
        (List.Sublist.map _ (List.filter_sublist _)) hinv.ids_nodup
    · intro x hx hx'
      obtain ⟨s, hs, rfl⟩ := List.mem_map.mp hx
      have hx'' : s.id = st.nextId := by simpa using hx'
      exact absurd hx''
        (Nat.ne_of_lt (hinv.ids_lt s (hmemchar s hs).1))
  · show ((st.fnCache ++ updateN k st.nextId st.varCache).map
      Prod.fst).Nodup
    rw [List.map_append, updateN_keys _ hcv, ← List.map_append]
    exact hinv.keys_nodup
  · intro s hs
    rcases List.mem_append.mp hs with h | h
    · obtain ⟨hmem, hne⟩ := hmemchar s h
      have hkey := hkeyne s hmem hne
      show lookupN s.key (st.fnCache ++ updateN k st.nextId st.varCache) =
        some s.id
      rw [hlookother _ hkey]
      exact hinv.syms_cached s hmem
    · have hse : s = { id := st.nextId, key := k, ty := d } := by simpa using h
      rw [hse]
      exact hlooknew
  · intro p hp
    rcases List.mem_append.mp hp with h | h
    · have hp1 : p.1 ≠ k := lookupN_eq_none.mp hcf p h
      obtain ⟨s2, hs2, hid2, hkey2⟩ :=
        hinv.cache_live p (List.mem_append_left _ h)
      have hid2' : s2.id = p.2 := hid2
      have hkey2' : s2.key = p.1 := hkey2
      have hne2 : s2.id ≠ i := by
        intro he
        have hes := hsameid s2 hs2 he
        apply hp1
        rw [← hkey2', hes, hs0key]
      refine ⟨s2, List.mem_append_left _ ?_, hid2, hkey2⟩
      exact List.mem_filter.mpr ⟨hs2, by simpa using hne2⟩
    · rcases mem_updateN_ne hvarnodup h with he | ⟨hmem, hne⟩
      · refine ⟨{ id := st.nextId, key := k, ty := d }, by simp, ?_, ?_⟩
        · rw [he]
        · rw [he]
      · obtain ⟨s2, hs2, hid2, hkey2⟩ :=
          hinv.cache_live p (List.mem_append_right _ hmem)
        have hkey2' : s2.key = p.1 := hkey2
        have hne2 : s2.id ≠ i := by
          intro he2
          have hes := hsameid s2 hs2 he2
          apply hne
          rw [← hkey2', hes, hs0key]
        refine ⟨s2, List.mem_append_left _ ?_, hid2, hkey2⟩
        exact List.mem_filter.mpr ⟨hs2, by simpa using hne2⟩
  · intro p hp
    rcases List.mem_append.mp hp with h | h
    · obtain ⟨h1, h2⟩ := hinv.fwd_bound p h
      exact ⟨h1, Nat.lt_succ_of_lt h2⟩
    · have hpe : p = (i, st.nextId) := by simpa using h
      rw [hpe]
      exact ⟨hi_lt, Nat.lt_succ_self _⟩
  · intro p hp s hs
    rcases List.mem_append.mp hs with hsf | hsn
    · obtain ⟨hmem, hne⟩ := hmemchar s hsf
      rcases List.mem_append.mp hp with h | h
      · exact hinv.fwd_not_live p h s hmem
      · have hpe : p = (i, st.nextId) := by simpa using h
        rw [hpe]
        exact hne
    · have hse : s = { id := st.nextId, key := k, ty := d } := by
        simpa using hsn
      rw [hse]
      exact Ne.symm (hjfresh p hp)
  · intro p hp
    rcases List.mem_append.mp hp with h | h
    · exact Nat.lt_succ_of_lt (hinv.log_lt p h)
    · have hpe : p = (k, st.nextId) := by simpa using h
      rw [hpe]
      exact Nat.lt_succ_self _
  · intro p hp
    rcases List.mem_append.mp hp with h | h
    · obtain ⟨i', hold, hres⟩ := hinv.log_resolves p h
      by_cases hpk : p.1 = k
      · have hii : i' = i := by
          rw [hpk, hall] at hold
          exact (Option.some.inj hold).symm
        refine ⟨st.nextId, ?_, ?_⟩
        · show lookupN p.1 (st.fnCache ++ updateN k st.nextId st.varCache) =
            some st.nextId
          rw [hpk]
          exact hlooknew
        · exact Resolves.extend_redirect hjnone hres (by rw [hii])
      · have hii : i' ≠ i := by
          intro he
          obtain ⟨s2, hs2, hid2, hkey2⟩ :=
            hinv.cache_live _ (lookupN_mem hold)
          have hid2' : s2.id = i' := hid2
          have hkey2' : s2.key = p.1 := hkey2
          have hes := hsameid s2 hs2 (by rw [hid2', he])
          apply hpk
          rw [← hkey2', hes, hs0key]
        refine ⟨i', ?_, Resolves.extend_ne hres hii⟩
        show lookupN p.1 (st.fnCache ++ updateN k st.nextId st.varCache) =
          some i'
        rw [hlookother _ hpk]
        exact hold
    · have hpe : p = (k, st.nextId) := by simpa using h
      rw [hpe]
      exact ⟨st.nextId, hlooknew, resolves_final_of_not_dom hjfresh⟩

theorem processReq_inv {st st' : CacheSt} {r : Req} (hinv : CacheInv st)
    (hfn : r.isFnReq = true → lookupN r.key st.varCache = none)
    (hvar : r.isFnReq = false → lookupN r.key st.fnCache = none)
    (hp : processReq st r = some st') :
    CacheInv st' ∧
    (∃ i, lookupN r.key (allCache st') = some i) ∧
    (∀ k i, lookupN k (allCache st) = some i →
      ∃ j, lookupN k (allCache st') = some j) ∧
    (∀ k, k ≠ r.key → lookupN k st'.varCache = lookupN k st.varCache) ∧
    (∀ k, k ≠ r.key → lookupN k st'.fnCache = lookupN k st.fnCache) ∧
    (r.isFnReq = true → st'.varCache = st.varCache) ∧
    (r.isFnReq = false → st'.fnCache = st.fnCache) := by
  cases r with
  | fn k ty =>
      have hkvar : lookupN k st.varCache = none := hfn rfl
      cases hc : lookupN k st.fnCache with
      | some i =>
          simp only [processReq, hc, Option.some.injEq] at hp
          subst hp
          have hall : lookupN k (allCache st) = some i := by
            show lookupN k (st.fnCache ++ st.varCache) = some i
            exact lookupN_append_some_left _ hc
          refine ⟨cacheInv_log_append hinv hall, ⟨i, hall⟩,
            fun k' i' h => ⟨i', h⟩, fun _ _ => rfl, fun _ _ => rfl,
            fun _ => rfl, ?_⟩
          intro h
          simp [Req.isFnReq] at h
      | none =>
          simp only [processReq, hc, Option.some.injEq] at hp
          subst hp
          have hnot : lookupN k (allCache st) = none := by
            show lookupN k (st.fnCache ++ st.varCache) = none
            rw [lookupN_append_none_left _ hc]
            exact hkvar
          have hmid : (st.fnCache ++ [(k, st.nextId)]) ++ st.varCache =
              st.fnCache ++ (k, st.nextId) :: st.varCache := by simp
          refine ⟨cacheInv_fn_create hinv hc hkvar, ?_, ?_, fun _ _ => rfl,
            ?_, fun _ => rfl, ?_⟩
          · refine ⟨st.nextId, ?_⟩
            show lookupN k ((st.fnCache ++ [(k, st.nextId)]) ++ st.varCache) =
              some st.nextId
            rw [hmid]
            exact lookupN_mid_self _ _ hc
          · intro k' i' h
            have hk' : k' ≠ k := by
              intro he
              rw [he, hnot] at h
              exact Option.noConfusion h
            refine ⟨i', ?_⟩
            show lookupN k'
              ((st.fnCache ++ [(k, st.nextId)]) ++ st.varCache) = some i'
            rw [hmid, lookupN_mid_ne _ _ hk']
            exact h
          · intro k' hk'
            show lookupN k' (st.fnCache ++ [(k, st.nextId)]) =
              lookupN k' st.fnCache
            exact lookupN_snoc_ne _ hk'
          · intro h
            simp [Req.isFnReq] at h
  | var k defTy defaultTy =>
      have hkfn : lookupN k st.fnCache = none := hvar rfl
      cases hc : lookupN k st.varCache with
      | none =>
          simp only [processReq, hc, Option.some.injEq] at hp
          subst hp
          have hnot : lookupN k (allCache st) = none := by
            show lookupN k (st.fnCache ++ st.varCache) = none
            rw [lookupN_append_none_left _ hkfn]
            exact hc
          have hassoc : st.fnCache ++ (st.varCache ++ [(k, st.nextId)]) =
              (st.fnCache ++ st.varCache) ++ [(k, st.nextId)] := by
            rw [List.append_assoc]
          refine ⟨cacheInv_var_create hinv hkfn hc, ?_, ?_, ?_,
            fun _ _ => rfl, ?_, fun _ => rfl⟩
          · refine ⟨st.nextId, ?_⟩
            show lookupN k
              (st.fnCache ++ (st.varCache ++ [(k, st.nextId)])) =
              some st.nextId
            rw [hassoc]
            exact lookupN_snoc_self _ hnot
          · intro k' i' h
            have hk' : k' ≠ k := by
              intro he
              rw [he, hnot] at h
              exact Option.noConfusion h
            refine ⟨i', ?_⟩
            show lookupN k'
              (st.fnCache ++ (st.varCache ++ [(k, st.nextId)])) = some i'
            rw [hassoc, lookupN_snoc_ne _ hk']
            exact h
          · intro k' hk'
            show lookupN k' (st.varCache ++ [(k, st.nextId)]) =
              lookupN k' st.varCache
            exact lookupN_snoc_ne _ hk'
          · intro h
            simp [Req.isFnReq] at h
      | some i =>
          cases defTy with
          | none =>
              simp only [processReq, hc, Option.some.injEq] at hp
              subst hp
              have hall : lookupN k (allCache st) = some i := by
                show lookupN k (st.fnCache ++ st.varCache) = some i
                rw [lookupN_append_none_left _ hkfn]
                exact hc
              refine ⟨cacheInv_log_append hinv hall, ⟨i, hall⟩,
                fun k' i' h => ⟨i', h⟩, fun _ _ => rfl, fun _ _ => rfl,
                ?_, fun _ => rfl⟩
              intro h
              simp [Req.isFnReq] at h
          | some d =>
              cases hfind : st.syms.find? (fun s => s.id == i) with
              | none =>
                  simp only [processReq, hc, hfind] at hp
                  exact Option.noConfusion hp
              | some s0 =>
                  have hs0mem : s0 ∈ st.syms :=
                    List.mem_of_find?_eq_some hfind
                  have hs0id : s0.id = i := by
                    have h2 := List.find?_some hfind
                    simpa using h2
                  by_cases hty : s0.ty = defaultTy
                  · by_cases hd : d = defaultTy
                    · simp only [processReq, hc, hfind] at hp
                      rw [if_neg (not_not_intro hty), if_pos hd,
                        Option.some.injEq] at hp
                      subst hp
                      have hall : lookupN k (allCache st) = some i := by
                        show lookupN k (st.fnCache ++ st.varCache) = some i
                        rw [lookupN_append_none_left _ hkfn]
                        exact hc
                      refine ⟨cacheInv_log_append hinv hall, ⟨i, hall⟩,
                        fun k' i' h => ⟨i', h⟩, fun _ _ => rfl,
                        fun _ _ => rfl, ?_, fun _ => rfl⟩
                      intro h
                      simp [Req.isFnReq] at h
                    · simp only [processReq, hc, hfind] at hp
                      rw [if_neg (not_not_intro hty), if_neg hd,
                        Option.some.injEq] at hp
                      subst hp
                      have hlooknew : lookupN k
                          (st.fnCache ++ updateN k st.nextId st.varCache) =
                          some st.nextId := by
                        rw [lookupN_append_none_left _ hkfn]
                        exact lookupN_updateN_self _ hc
                      refine ⟨cacheInv_var_upgrade hinv hkfn hc,
                        ⟨st.nextId, hlooknew⟩, ?_, ?_, fun _ _ => rfl,
                        ?_, fun _ => rfl⟩
                      · intro k' i' h
                        by_cases hk' : k' = k
                        · refine ⟨st.nextId, ?_⟩
                          show lookupN k'
                            (st.fnCache ++ updateN k st.nextId st.varCache) =
                            some st.nextId
                          rw [hk']
                          exact hlooknew
                        · refine ⟨i', ?_⟩
                          show lookupN k'
                            (st.fnCache ++ updateN k st.nextId st.varCache) =
                            some i'
                          rw [lookupN_append_congr_right _
                            (lookupN_updateN_other _ hk' _)]
                          exact h
                      · intro k' hk'
                        show lookupN k' (updateN k st.nextId st.varCache) =
                          lookupN k' st.varCache
                        exact lookupN_updateN_other _ hk' _
                      · intro h
                        simp [Req.isFnReq] at h
                  · simp only [processReq, hc, hfind] at hp
                    rw [if_pos hty] at hp
                    exact Option.noConfusion hp

theorem fnKeys_cons_fn (k ty : Nat) (rs : List Req) :
    fnKeys (Req.fn k ty :: rs) = k :: fnKeys rs := by
  simp [fnKeys, List.filter_cons, Req.isFnReq, Req.key]

theorem fnKeys_cons_var (k : Nat) (dt : Option Nat) (dft : Nat)
    (rs : List Req) : fnKeys (Req.var k dt dft :: rs) = fnKeys rs := by
  simp [fnKeys, List.filter_cons, Req.isFnReq]

theorem varKeys_cons_fn (k ty : Nat) (rs : List Req) :
    varKeys (Req.fn k ty :: rs) = varKeys rs := by
  simp [varKeys, List.filter_cons, Req.isFnReq]

theorem varKeys_cons_var (k : Nat) (dt : Option Nat) (dft : Nat)
    (rs : List Req) : varKeys (Req.var k dt dft :: rs) = k :: varKeys rs := by
  simp [varKeys, List.filter_cons, Req.isFnReq, Req.key]

theorem requestedKeys_cons (r : Req) (rs : List Req) :
    requestedKeys (r :: rs) = r.key :: requestedKeys rs := by
  simp [requestedKeys]

theorem familiesConsistent_disjoint {reqs : List Req}
    (h : familiesConsistent reqs = true) :
    ∀ k ∈ fnKeys reqs, k ∉ varKeys reqs := by
  intro k hk
  have h2 := List.all_eq_true.mp h k hk
  simpa using h2

theorem runReqs_inv : ∀ (reqs : List Req) (st st' : CacheSt),
    CacheInv st →
    (∀ k, k ∈ fnKeys reqs → lookupN k st.varCache = none) →
    (∀ k, k ∈ varKeys reqs → lookupN k st.fnCache = none) →
    (∀ k ∈ fnKeys reqs, k ∉ varKeys reqs) →
    runReqs st reqs = some st' →
    CacheInv st' ∧
    (∀ k, k ∈ requestedKeys reqs → ∃ i, lookupN k (allCache st') = some i) ∧
    (∀ k i, lookupN k (allCache st) = some i →
      ∃ j, lookupN k (allCache st') = some j) := by
  intro reqs
  induction reqs with
  | nil =>
      intro st st' hinv _ _ _ hrun
      have hst : st = st' := by simpa [runReqs] using hrun
      subst hst
      exact ⟨hinv, by simp [requestedKeys], fun k i h => ⟨i, h⟩⟩
  | cons r rs ih =>
      intro st st' hinv h1 h2 hd hrun
      cases hps : processReq st r with
      | none =>
          rw [runReqs, hps] at hrun
          exact Option.noConfusion hrun
      | some st1 =>
          rw [runReqs, hps] at hrun
          have hkfn : r.isFnReq = true → r.key ∈ fnKeys (r :: rs) := by
            intro hf
            cases r with
            | fn a b => rw [fnKeys_cons_fn]; exact List.mem_cons_self _ _
            | var a b c => simp [Req.isFnReq] at hf
          have hkvar : r.isFnReq = false → r.key ∈ varKeys (r :: rs) := by
            intro hf
            cases r with
            | fn a b => simp [Req.isFnReq] at hf
            | var a b c => rw [varKeys_cons_var]; exact List.mem_cons_self _ _
          obtain ⟨inv1, ⟨i0, hc0⟩, P3, P4, P5, P6, P7⟩ :=
            processReq_inv hinv (fun hf => h1 _ (hkfn hf))
              (fun hf => h2 _ (hkvar hf)) hps
          have hsubfn : ∀ k, k ∈ fnKeys rs → k ∈ fnKeys (r :: rs) := by
            intro k hk
            cases r with
            | fn a b => rw [fnKeys_cons_fn]; exact List.mem_cons_of_mem _ hk
            | var a b c => rw [fnKeys_cons_var]; exact hk
          have hsubvar : ∀ k, k ∈ varKeys rs → k ∈ varKeys (r :: rs) := by
            intro k hk
            cases r with
            | fn a b => rw [varKeys_cons_fn]; exact hk
            | var a b c => rw [varKeys_cons_var]; exact List.mem_cons_of_mem _ hk
          have h1' : ∀ k, k ∈ fnKeys rs → lookupN k st1.varCache = none := by
            intro k hk
            by_cases hkr : k = r.key
            · cases hrfn : r.isFnReq with
              | true =>
                  rw [P6 hrfn]
                  exact h1 k (hsubfn k hk)
              | false =>
                  exact absurd (by rw [hkr]; exact hkvar hrfn)
                    (hd k (hsubfn k hk))
            · rw [P4 k hkr]
              exact h1 k (hsubfn k hk)
          have h2' : ∀ k, k ∈ varKeys rs → lookupN k st1.fnCache = none := by
            intro k hk
            by_cases hkr : k = r.key
            · cases hrfn : r.isFnReq with
              | false =>
                  rw [P7 hrfn]
                  exact h2 k (hsubvar k hk)
              | true =>
                  exact absurd (hsubvar k hk)
                    (by rw [hkr]; exact fun hv => hd r.key (hkfn hrfn) hv)
            · rw [P5 k hkr]
              exact h2 k (hsubvar k hk)
          have hd' : ∀ k ∈ fnKeys rs, k ∉ varKeys rs := fun k hk hv =>
            hd k (hsubfn k hk) (hsubvar k hv)
          obtain ⟨invF, hreq, hpers⟩ := ih st1 st' inv1 h1' h2' hd' hrun
          refine ⟨invF, ?_, fun k i h => ?_⟩
          · intro k hk
            rw [requestedKeys_cons] at hk
            rcases List.mem_cons.mp hk with he | hmem
            · rw [he]
              exact hpers r.key i0 hc0
            · exact hreq k hmem
          · obtain ⟨j, hj⟩ := P3 k i h
            exact hpers k j hj

/-- C1: every entity key requested during one module's lowering through the
cached entry points ends with exactly one live IR symbol for it; every
request's returned handle, read through the use-splicing map that the
definition-upgrade path maintains, reaches the one cached symbol for its
key; the first request created it and later requests reuse or upgrade it
in place. -/
theorem getAddrOf_one_artifact (reqs : List Req) (st' : CacheSt)
    (hcons : familiesConsistent reqs = true)
    (hrun : runReqs initSt reqs = some st') :
    ∀ k ∈ requestedKeys reqs,
      (liveFor st' k).length = 1 ∧
      ∀ p ∈ st'.log, p.1 = k →
        ∃ s, s ∈ st'.syms ∧ s.key = k ∧
          lookupN k (allCache st') = some s.id ∧
          resolveF st'.nextId st'.forward p.2 = s.id := by
  have hinv0 : CacheInv initSt := by
    refine ⟨?_, ?_, ?_, ?_, ?_, ?_, ?_, ?_, ?_⟩ <;> simp [initSt, allCache]
  obtain ⟨hinv, hreq, _⟩ :=
    runReqs_inv reqs initSt st' hinv0 (by simp [initSt, lookupN])
      (by simp [initSt, lookupN]) (familiesConsistent_disjoint hcons) hrun
  intro k hk
  obtain ⟨i, hik⟩ := hreq k hk
  obtain ⟨s, hs, hsid0, hskey0⟩ := hinv.cache_live _ (lookupN_mem hik)
  have hsid : s.id = i := hsid0
  have hskey : s.key = k := hskey0
  constructor
  · apply length_eq_one_of_nodup
    · exact List.Nodup.filter _ (List.Nodup.of_map _ hinv.ids_nodup)
    · exact List.mem_filter.mpr ⟨hs, by simp [hskey]⟩
    · intro x hx
      have hx2 := List.mem_filter.mp hx
      have hxk : x.key = k := by simpa using hx2.2
      have hxc := hinv.syms_cached x hx2.1
      rw [hxk, hik] at hxc
      have hxid : x.id = i := (Option.some.inj hxc).symm
      exact sym_inj hinv hx2.1 hs (by rw [hxid, hsid])
  · intro p hp hpk
    obtain ⟨i', hold, hres⟩ := hinv.log_resolves p hp
    have hi' : i' = i := by
      rw [hpk, hik] at hold
      exact (Option.some.inj hold).symm
    have hres' : Resolves st'.forward p.2 i := by
      rw [← hi']
      exact hres
    refine ⟨s, hs, hskey, by rw [hsid]; exact hik, ?_⟩
    rw [hsid]
    exact resolveF_of_resolves hinv.fwd_bound hres' st'.nextId
      (Nat.le_add_right _ _)

/-- Witness for C1: the example trace with a forward declaration, a
definition upgrade, and repeated function requests. -/
theorem getAddrOf_one_artifact_witness :
    familiesConsistent exReqs = true ∧
    ((liveFor exSt 0).length = 1 ∧
      ∀ p ∈ exSt.log, p.1 = 0 →
        ∃ s, s ∈ exSt.syms ∧ s.key = 0 ∧
          lookupN 0 (allCache exSt) = some s.id ∧
          resolveF exSt.nextId exSt.forward p.2 = s.id) :=
  ⟨by decide,
    getAddrOf_one_artifact exReqs exSt (by decide) (by decide) 0 (by decide)⟩

/-! ## Global string uniquing -/

theorem lookupStr_snoc_self (t : List (List Nat × StrAddr)) (k : List Nat)
    (a : StrAddr) (h : lookupStr k t = none) :
    lookupStr k (t ++ [(k, a)]) = some a := by
  induction t with
  | nil => simp [lookupStr]
  | cons p ps ih =>
      by_cases hp : p.1 = k
      · simp [lookupStr, hp] at h
      · simp [lookupStr, hp] at h
        simp [lookupStr, hp, ih h]

/-- C10: getAddrOfGlobalString is idempotent: a repeated call with equal
contents returns the identical cached constant and leaves the state
unchanged; and a first call creates exactly one constant, private-linkage,
unnamed-address global holding the data plus a trailing null terminator,
returning the in-bounds address of its first byte. -/
theorem getAddrOfGlobalString_spec (data : List Nat) (st : StrSt) :
    (getAddrOfGlobalString data (getAddrOfGlobalString data st).2).1 =
      (getAddrOfGlobalString data st).1 ∧
    (getAddrOfGlobalString data (getAddrOfGlobalString data st).2).2 =
      (getAddrOfGlobalString data st).2 ∧
    (lookupStr data st.table = none →
      (getAddrOfGlobalString data st).2.globals = st.globals ++
        [{ id := st.nextId, isConstant := true,
           linkage := Linkage.privateLinkage, unnamedAddr := true,
           bytes := data ++ [0] }] ∧
      (getAddrOfGlobalString data st).1 =
        { globalId := st.nextId, idx0 := 0, idx1 := 0 }) := by
  cases hc : lookupStr data st.table with
  | some a =>
      refine ⟨?_, ?_, ?_⟩ <;> simp [getAddrOfGlobalString, hc]
  | none =>
      have hsnoc := lookupStr_snoc_self st.table data
        { globalId := st.nextId, idx0 := 0, idx1 := 0 } hc
      refine ⟨?_, ?_, ?_⟩ <;>
        simp [getAddrOfGlobalString, hc, hsnoc]

/-- Witness for C10: a fresh string with an embedded null byte. -/
theorem getAddrOfGlobalString_spec_witness :
    lookupStr [72, 0, 105] initStrSt.table = none ∧
    ((getAddrOfGlobalString [72, 0, 105] initStrSt).2.globals =
      initStrSt.globals ++
        [{ id := initStrSt.nextId, isConstant := true,
           linkage := Linkage.privateLinkage, unnamedAddr := true,
           bytes := [72, 0, 105] ++ [0] }] ∧
      (getAddrOfGlobalString [72, 0, 105] initStrSt).1 =
        { globalId := initStrSt.nextId, idx0 := 0, idx1 := 0 }) :=
  ⟨by decide,
    (getAddrOfGlobalString_spec [72, 0, 105] initStrSt).2.2 (by decide)⟩

/-! ## Metadata addressing -/

/-- C6: the word adjustment is zero for the pattern form, zero for the
indirect form, zero for the host-runtime class form, two for direct
class-type metadata, and one for every other direct metadata; the returned
address is the raw storage address plus that adjustment as an in-bounds
element access, except that a caller-supplied definition storage type
yields the unadjusted storage address. -/
theorem getAddrOfTypeMetadata_spec (t : MTy) (isIndirect isPattern : Bool)
    (storageType : Option STy) :
    (isPattern = true →
      metadataAdjustmentIndex t isIndirect isPattern = 0) ∧
    (isIndirect = true →
      metadataAdjustmentIndex t isIndirect isPattern = 0) ∧
    (isPattern = false → isIndirect = false →
      metadataAdjustmentIndex (MTy.classTy false) isIndirect isPattern = 0 ∧
      metadataAdjustmentIndex (MTy.classTy true) isIndirect isPattern = 2 ∧
      metadataAdjustmentIndex MTy.boundGenericClassTy isIndirect isPattern
        = 2 ∧
      ∀ n, metadataAdjustmentIndex (MTy.nonClassTy n) isIndirect isPattern
        = 1) ∧
    (∀ s, storageType = some s →
      getAddrOfTypeMetadata t isIndirect isPattern storageType =
        MetaAddr.raw s) ∧
    (storageType = none →
      metadataAdjustmentIndex t isIndirect isPattern ≠ 0 →
      getAddrOfTypeMetadata t isIndirect isPattern none =
        MetaAddr.adjusted (metadataDefaultTy t isIndirect isPattern)
          (metadataAdjustmentIndex t isIndirect isPattern)) ∧
    (storageType = none →
      metadataAdjustmentIndex t isIndirect isPattern = 0 →
      getAddrOfTypeMetadata t isIndirect isPattern none =
        MetaAddr.raw (metadataDefaultTy t isIndirect isPattern)) := by
  cases t <;> cases isIndirect <;> cases isPattern <;>
    cases storageType <;>
      simp_all [metadataAdjustmentIndex, metadataDefaultTy,
        getAddrOfTypeMetadata]

/-- Witness for C6: direct class metadata with known Swift metadata gets
the two-word adjustment, and a supplied definition type suppresses it. -/
theorem getAddrOfTypeMetadata_spec_witness :
    getAddrOfTypeMetadata (MTy.classTy true) false false none =
      MetaAddr.adjusted (metadataDefaultTy (MTy.classTy true) false false)
        (metadataAdjustmentIndex (MTy.classTy true) false false) ∧
    getAddrOfTypeMetadata (MTy.classTy true) false false
        (some (STy.otherSTy 9)) =
      MetaAddr.raw (STy.otherSTy 9) :=
  ⟨(getAddrOfTypeMetadata_spec (MTy.classTy true) false false
      none).2.2.2.2.1 rfl (by decide),
    (getAddrOfTypeMetadata_spec (MTy.classTy true) false false
      (some (STy.otherSTy 9))).2.2.2.1 (STy.otherSTy 9) rfl⟩

/-! ## Initializer synthesis and entry sequencing -/

/-- C5: in a non-entry-point unit whose top-level function body is exactly
one return instruction, the wrapper initializer and the top-level function
are erased and no constructor entry is made; otherwise exactly one entry
with the fixed priority one is appended.  Entry-point units get no wrapper
and no constructor entry; their entry function stores the marshaled
arguments, performs any pending class and category announcements, calls
the top-level code, and returns status zero. -/
theorem emitSourceFile_initializer_spec (kind : SourceFileKind) (tlc : Fn)
    (objcInterop useJIT : Bool) (cls cats : List Nat)
    (hassert : isTrivialGlobalInit tlc = true →
      tlc.blocks = [[Instr.retVoid]]) :
    (kind = SourceFileKind.libraryKind →
      (tlc.blocks = [[Instr.retVoid]] →
        (emitSourceFile kind (some tlc) objcInterop useJIT cls
          cats).ctorEntries = [] ∧
        (emitSourceFile kind (some tlc) objcInterop useJIT cls
          cats).initFn = none ∧
        (emitSourceFile kind (some tlc) objcInterop useJIT cls
          cats).topLevelKept = false) ∧
      (tlc.blocks ≠ [[Instr.retVoid]] →
        (emitSourceFile kind (some tlc) objcInterop useJIT cls
          cats).ctorEntries = [(1, wrapperInitFn)] ∧
        (emitSourceFile kind (some tlc) objcInterop useJIT cls
          cats).initFn = some wrapperInitFn ∧
        (emitSourceFile kind (some tlc) objcInterop useJIT cls
          cats).topLevelKept = true)) ∧
    ((kind = SourceFileKind.mainKind ∨ kind = SourceFileKind.replKind) →
      (emitSourceFile kind (some tlc) objcInterop useJIT cls
        cats).initFn = none ∧
      (emitSourceFile kind (some tlc) objcInterop useJIT cls
        cats).ctorEntries = [] ∧
      ∃ announce,
        (emitSourceFile kind (some tlc) objcInterop useJIT cls
          cats).mainBody =
          some ([Instr.storeArg 0, Instr.storeArg 1] ++ announce ++
            [Instr.callTopLevel, Instr.retVal 0]) ∧
        ∀ a ∈ announce,
          a = Instr.callClassInit ∨ a = Instr.callCategoryInit) := by
  constructor
  · intro hk
    subst hk
    constructor
    · intro htriv
      have ht : isTrivialGlobalInit tlc = true := by
        simp [isTrivialGlobalInit, htriv]
      refine ⟨?_, ?_, ?_⟩ <;> simp [emitSourceFile, ht]
    · intro hne
      have ht : isTrivialGlobalInit tlc = false := by
        cases h : isTrivialGlobalInit tlc
        · rfl
        · exact absurd (hassert h) hne
      refine ⟨?_, ?_, ?_⟩ <;> simp [emitSourceFile, ht]
  · intro hk
    have hmain : ∀ a ∈ (if objcInterop && useJIT then
        (if cls.isEmpty then [] else [Instr.callClassInit]) ++
          (if cats.isEmpty then [] else [Instr.callCategoryInit])
      else ([] : List Instr)),
        a = Instr.callClassInit ∨ a = Instr.callCategoryInit := by
      intro a ha
      by_cases hij : objcInterop && useJIT <;>
        by_cases h1 : cls.isEmpty <;>
          by_cases h2 : cats.isEmpty <;>
            simp_all
    rcases hk with hk | hk <;> subst hk <;>
      exact ⟨by simp [emitSourceFile], by simp [emitSourceFile],
        ⟨(if objcInterop && useJIT then
            (if cls.isEmpty then [] else [Instr.callClassInit]) ++
              (if cats.isEmpty then [] else [Instr.callCategoryInit])
          else []),
          by simp [emitSourceFile, isScriptMode], hmain⟩⟩

/-- Witness for C5: a library unit whose top-level body is a lone return
is elided entirely. -/
theorem emitSourceFile_initializer_spec_witness :
    (emitSourceFile SourceFileKind.libraryKind
        (some { blocks := [[Instr.retVoid]] }) false false [] []).ctorEntries
      = [] ∧
    (emitSourceFile SourceFileKind.libraryKind
        (some { blocks := [[Instr.retVoid]] }) false false [] []).initFn
      = none ∧
    (emitSourceFile SourceFileKind.libraryKind
        (some { blocks := [[Instr.retVoid]] }) false false [] []).topLevelKept
      = false :=
  ((emitSourceFile_initializer_spec SourceFileKind.libraryKind
      { blocks := [[Instr.retVoid]] } false false [] []
      (fun _ => rfl)).1 rfl).1 rfl

/-- C9: when both pending registration lists are non-empty at end of unit
(immediate-mode interop), the synthesized entry function calls the class
initializer strictly before the category initializer. -/
theorem class_registration_precedes_categories (kind : SourceFileKind)
    (tlc : Option Fn) (cls cats : List Nat)
    (hscript : isScriptMode kind = true) (hcls : cls ≠ [])
    (hcats : cats ≠ []) :
    (emitSourceFile kind tlc true true cls cats).mainBody ≠ none ∧
    Instr.callClassInit ∈
      ((emitSourceFile kind tlc true true cls cats).mainBody.getD []) ∧
    Instr.callCategoryInit ∈
      ((emitSourceFile kind tlc true true cls cats).mainBody.getD []) ∧
    ((emitSourceFile kind tlc true true cls cats).mainBody.getD
        []).indexOf Instr.callClassInit <
      ((emitSourceFile kind tlc true true cls cats).mainBody.getD
        []).indexOf Instr.callCategoryInit := by
  have h1 : cls.isEmpty = false := by
    cases cls with
    | nil => exact absurd rfl hcls
    | cons a l => rfl
  have h2 : cats.isEmpty = false := by
    cases cats with
    | nil => exact absurd rfl hcats
    | cons a l => rfl
  cases kind with
  | libraryKind => simp [isScriptMode] at hscript
  | mainKind =>
      cases tlc with
      | none =>
          refine ⟨?_, ?_, ?_, ?_⟩ <;> simp [emitSourceFile, h1, h2] <;>
            decide
      | some f =>
          refine ⟨?_, ?_, ?_, ?_⟩ <;> simp [emitSourceFile, h1, h2] <;>
            decide
  | replKind =>
      cases tlc with
      | none =>
          refine ⟨?_, ?_, ?_, ?_⟩ <;> simp [emitSourceFile, h1, h2] <;>
            decide
      | some f =>
          refine ⟨?_, ?_, ?_, ?_⟩ <;> simp [emitSourceFile, h1, h2] <;>
            decide

/-- Witness for C9: one pending class and one pending category in a main
unit. -/
theorem class_registration_precedes_categories_witness :
    (emitSourceFile SourceFileKind.mainKind none true true [0]
        [0]).mainBody ≠ none ∧
    Instr.callClassInit ∈
      ((emitSourceFile SourceFileKind.mainKind none true true [0]
        [0]).mainBody.getD []) ∧
    Instr.callCategoryInit ∈
      ((emitSourceFile SourceFileKind.mainKind none true true [0]
        [0]).mainBody.getD []) ∧
    ((emitSourceFile SourceFileKind.mainKind none true true [0]
        [0]).mainBody.getD []).indexOf Instr.callClassInit <
      ((emitSourceFile SourceFileKind.mainKind none true true [0]
        [0]).mainBody.getD []).indexOf Instr.callCategoryInit :=
  class_registration_precedes_categories SourceFileKind.mainKind none
    [0] [0] (by decide) (by decide) (by decide)

/-! ## Extensions and categories -/

theorem anyInheritedRequiresCategory_iff (l : List ConfNode) :
    anyInheritedRequiresCategory l = true ↔
      ∃ c ∈ l, protocolExtensionRequiresCategory c = true := by
  induction l with
  | nil => simp [anyInheritedRequiresCategory]
  | cons c cs ih =>
      simp [anyInheritedRequiresCategory, Bool.or_eq_true, ih]

theorem protocolExtensionRequiresCategory_iff :
    ∀ c, protocolExtensionRequiresCategory c = true ↔ ConfReachesObjC c
  | ConfNode.mk objc inh => by
      have ihs : ∀ c' ∈ inh,
          (protocolExtensionRequiresCategory c' = true ↔
            ConfReachesObjC c') := by
        intro c' hc'
        exact protocolExtensionRequiresCategory_iff c'
      constructor
      · intro h
        rw [protocolExtensionRequiresCategory] at h
        rw [Bool.or_eq_true] at h
        rcases h with h | h
        · rw [h]
          exact ConfReachesObjC.direct inh
        · obtain ⟨c', hmem, hreq⟩ :=
            (anyInheritedRequiresCategory_iff inh).mp h
          exact ConfReachesObjC.inherited objc inh c' hmem
            ((ihs c' hmem).mp hreq)
      · intro h
        cases h with
        | direct inh => simp [protocolExtensionRequiresCategory]
        | inherited objc inh c' hmem hcre =>
            rw [protocolExtensionRequiresCategory, Bool.or_eq_true]
            exact Or.inr ((anyInheritedRequiresCategory_iff inh).mpr
              ⟨c', hmem, (ihs c' hmem).mpr hcre⟩)
termination_by c => sizeOf c
decreasing_by
  simp_wf
  have hsz := List.sizeOf_lt_of_mem hc'
  omega

/-- C7: an extension of a class produces exactly one category
registration entry when the extended class is runtime-visible, or some
declared conformance reaches a runtime-visible protocol directly or
through inherited conformances, or some member requires a
dynamic-dispatch entry point; when none of the three holds it produces
none. -/
theorem emitExtension_category_iff (e : ExtensionInfo)
    (cats : List Nat) (decls : List ExtensionInfo) :
    (extensionNeedsCategory e = true ↔
      (e.origClassIsObjC = true ∨
        (∃ c ∈ e.conformances, ConfReachesObjC c) ∨
        ∃ m ∈ e.members, memberNeedsEntry m = true)) ∧
    ((e.origClassIsObjC = true ∨
        (∃ c ∈ e.conformances, ConfReachesObjC c) ∨
        ∃ m ∈ e.members, memberNeedsEntry m = true) →
      emitExtension e cats decls = (cats ++ [0], decls ++ [e])) ∧
    (e.origClassIsObjC = false →
      (∀ c ∈ e.conformances, ¬ ConfReachesObjC c) →
      (∀ m ∈ e.members, memberNeedsEntry m = false) →
      emitExtension e cats decls = (cats, decls)) := by
  have hiff : extensionNeedsCategory e = true ↔
      (e.origClassIsObjC = true ∨
        (∃ c ∈ e.conformances, ConfReachesObjC c) ∨
        ∃ m ∈ e.members, memberNeedsEntry m = true) := by
    rw [extensionNeedsCategory]
    simp only [Bool.or_eq_true, List.any_eq_true,
      anyInheritedRequiresCategory_iff]
    constructor
    · intro h
      rcases h with (h | h) | h
      · exact Or.inl h
      · obtain ⟨c, hc, hreq⟩ := h
        exact Or.inr (Or.inl
          ⟨c, hc, (protocolExtensionRequiresCategory_iff c).mp hreq⟩)
      · exact Or.inr (Or.inr h)
    · intro h
      rcases h with h | h | h
      · exact Or.inl (Or.inl h)
      · obtain ⟨c, hc, hre⟩ := h
        exact Or.inl (Or.inr
          ⟨c, hc, (protocolExtensionRequiresCategory_iff c).mpr hre⟩)
      · exact Or.inr h
  refine ⟨hiff, ?_, ?_⟩
  · intro h
    rw [emitExtension, if_pos (hiff.mpr h)]
  · intro h1 h2 h3
    have hno : extensionNeedsCategory e = false := by
      cases hne : extensionNeedsCategory e
      · rfl
      · rcases hiff.mp hne with h | h | h
        · rw [h1] at h
          exact Bool.noConfusion h
        · obtain ⟨c, hc, hre⟩ := h
          exact absurd hre (h2 c hc)
        · obtain ⟨m, hm, hme⟩ := h
          rw [h3 m hm] at hme
          exact Bool.noConfusion hme
    rw [emitExtension, if_neg (by simp [hno])]

/-- Witness for C7: an extension whose single conformance reaches a
runtime-visible protocol only through an inherited conformance produces
one entry; the fully non-visible extension produces none. -/
theorem emitExtension_category_iff_witness :
    emitExtension exExtInherited [] [] = ([0], [exExtInherited]) ∧
    emitExtension exExtPlain [] [] = ([], []) :=
  ⟨(emitExtension_category_iff exExtInherited [] []).2.1
      (Or.inr (Or.inl ⟨ConfNode.mk false [ConfNode.mk true []],
        List.mem_singleton.mpr rfl,
        ConfReachesObjC.inherited false [ConfNode.mk true []]
          (ConfNode.mk true []) (List.mem_singleton.mpr rfl)
          (ConfReachesObjC.direct [])⟩)),
    (emitExtension_category_iff exExtPlain [] []).2.2 rfl
      (by
        intro c hc
        have hce : c = ConfNode.mk false [] := by
          simpa [exExtPlain] using hc
        subst hce
        intro hre
        cases hre with
        | inherited _ _ _ hmem _ => simp at hmem)
      (by
        intro m hm
        have hme : m = ExtMember.funcMember false := by
          simpa [exExtPlain] using hm
        rw [hme]
        rfl)⟩

/-! ## Formal getter and setter types -/

/-- C8: a getter's formal type starts from the empty-argument function
onto the object type and a setter's from the object type onto the empty
tuple; a subscript then prepends its index type and bumps the uncurry
level; a member of a nominal type or extension then prepends the receiver,
as an lvalue exactly when the owner lacks reference semantics, bumps the
uncurry level again and selects the method convention, while non-members
keep the freestanding convention. -/
theorem formal_getter_setter_spec (v : VDecl) :
    (isMemberContext v.ctxKind = false → v.isSubscriptDecl = false →
      getTypeOfGetter v =
        { formalType := FTy.fn FTy.empty v.declType,
          cc := AbstractCC.freestanding, uncurryLevel := 0 } ∧
      getTypeOfSetter v =
        { formalType := FTy.fn v.declType FTy.empty,
          cc := AbstractCC.freestanding, uncurryLevel := 0 }) ∧
    (isMemberContext v.ctxKind = false → v.isSubscriptDecl = true →
      getTypeOfGetter v =
        { formalType := FTy.fn v.indicesType
            (FTy.fn FTy.empty v.elementType),
          cc := AbstractCC.freestanding, uncurryLevel := 1 } ∧
      getTypeOfSetter v =
        { formalType := FTy.fn v.indicesType
            (FTy.fn v.elementType FTy.empty),
          cc := AbstractCC.freestanding, uncurryLevel := 1 }) ∧
    (isMemberContext v.ctxKind = true →
      (getTypeOfGetter v).cc = AbstractCC.method ∧
      (getTypeOfSetter v).cc = AbstractCC.method ∧
      (getTypeOfGetter v).uncurryLevel =
        (if v.isSubscriptDecl then 1 else 0) + 1 ∧
      (getTypeOfSetter v).uncurryLevel =
        (if v.isSubscriptDecl then 1 else 0) + 1 ∧
      (getTypeOfGetter v).formalType =
        (match v.owner.genericParamsOfContext with
          | some ps => FTy.polyFn ps
              (if v.owner.hasReferenceSemantics then
                v.owner.declaredTypeInContext
               else FTy.lvalue v.owner.declaredTypeInContext)
              (if v.isSubscriptDecl then
                FTy.fn v.indicesType (FTy.fn FTy.empty v.elementType)
               else FTy.fn FTy.empty v.declType)
          | none => FTy.fn
              (if v.owner.hasReferenceSemantics then
                v.owner.declaredTypeInContext
               else FTy.lvalue v.owner.declaredTypeInContext)
              (if v.isSubscriptDecl then
                FTy.fn v.indicesType (FTy.fn FTy.empty v.elementType)
               else FTy.fn FTy.empty v.declType)) ∧
      (getTypeOfSetter v).formalType =
        (match v.owner.genericParamsOfContext with
          | some ps => FTy.polyFn ps
              (if v.owner.hasReferenceSemantics then
                v.owner.declaredTypeInContext
               else FTy.lvalue v.owner.declaredTypeInContext)
              (if v.isSubscriptDecl then
                FTy.fn v.indicesType (FTy.fn v.elementType FTy.empty)
               else FTy.fn v.declType FTy.empty)
          | none => FTy.fn
              (if v.owner.hasReferenceSemantics then
                v.owner.declaredTypeInContext
               else FTy.lvalue v.owner.declaredTypeInContext)
              (if v.isSubscriptDecl then
                FTy.fn v.indicesType (FTy.fn v.elementType FTy.empty)
               else FTy.fn v.declType FTy.empty))) := by
  obtain ⟨ck, ow, sub, it, et, dt⟩ := v
  obtain ⟨odt, ors, ogp⟩ := ow
  cases ck <;> cases sub <;> cases ors <;> cases ogp <;>
    simp [getTypeOfGetter, getTypeOfSetter, getObjectType,
      addIndexArgument, addOwnerArgument, addOwnerArgumentDC,
      isMemberContext]

/-- Witness for C8: a computed property of a value-semantics nominal type
gets method convention and uncurry level one. -/
theorem formal_getter_setter_spec_witness :
    (getTypeOfGetter exVDecl).cc = AbstractCC.method ∧
    (getTypeOfGetter exVDecl).uncurryLevel = (if false then 1 else 0) + 1 :=
  ⟨((formal_getter_setter_spec exVDecl).2.2 rfl).1,
    ((formal_getter_setter_spec exVDecl).2.2 rfl).2.2.1⟩

/-! ## The linkage decision table -/

/-- C2: the linkage decision chain of LinkInfo::get: local entities get
internal linkage with default visibility; otherwise value-witness, thunk
or deserialized entities get link-once-deduplicated linkage with hidden
visibility; every remaining entity gets external linkage with default
visibility.  For declaration-kind entities locality is the declaration
context walk, and for type-kind entities it is the structural type
locality scan. -/
theorem linkInfoGet_decision_table :
    (∀ e : LinkEntity, e.isLocalLinkage = true →
      linkInfoGet e =
        { linkage := Linkage.internal,
          visibility := Visibility.defaultVis }) ∧
    (∀ e : LinkEntity, e.isLocalLinkage = false →
      (e.isValueWitness || e.isThunk || e.isDeserialized) = true →
      linkInfoGet e =
        { linkage := Linkage.linkOnceODR,
          visibility := Visibility.hidden }) ∧
    (∀ e : LinkEntity, e.isLocalLinkage = false →
      (e.isValueWitness || e.isThunk || e.isDeserialized) = false →
      linkInfoGet e =
        { linkage := Linkage.external,
          visibility := Visibility.defaultVis }) ∧
    (∀ d : LDecl,
      (LinkEntity.witnessTableOffset d).isLocalLinkage =
        isLocalLinkageDecl d ∧
      (LinkEntity.constructorEntity d).isLocalLinkage =
        isLocalLinkageDecl d ∧
      (LinkEntity.destructorEntity d).isLocalLinkage =
        isLocalLinkageDecl d ∧
      (LinkEntity.functionEntity d).isLocalLinkage = isLocalLinkageDecl d ∧
      (LinkEntity.getterEntity d).isLocalLinkage = isLocalLinkageDecl d ∧
      (LinkEntity.setterEntity d).isLocalLinkage = isLocalLinkageDecl d ∧
      (LinkEntity.otherEntity d).isLocalLinkage = isLocalLinkageDecl d ∧
      (LinkEntity.objcClassEntity d).isLocalLinkage =
        isLocalLinkageDecl d ∧
      (LinkEntity.objcMetaclassEntity d).isLocalLinkage =
        isLocalLinkageDecl d ∧
      (LinkEntity.swiftMetaclassStub d).isLocalLinkage =
        isLocalLinkageDecl d ∧
      (LinkEntity.fieldOffset d).isLocalLinkage = isLocalLinkageDecl d ∧
      (LinkEntity.nominalTypeDescriptor d).isLocalLinkage =
        isLocalLinkageDecl d ∧
      (LinkEntity.protocolDescriptor d).isLocalLinkage =
        isLocalLinkageDecl d ∧
      (LinkEntity.debuggerDeclTypeMangling d).isLocalLinkage =
        isLocalLinkageDecl d) ∧
    (∀ (t : LTy) (w : Nat),
      (LinkEntity.valueWitness t w).isLocalLinkage =
        isLocalLinkageType t ∧
      (LinkEntity.valueWitnessTable t).isLocalLinkage =
        isLocalLinkageType t ∧
      (∀ ii pp : Bool, (LinkEntity.typeMetadata t ii pp).isLocalLinkage =
        isLocalLinkageType t) ∧
      (LinkEntity.typeMangling t).isLocalLinkage = isLocalLinkageType t ∧
      (LinkEntity.debuggerTypeMangling t).isLocalLinkage =
        isLocalLinkageType t) := by
  refine ⟨?_, ?_, ?_, ?_, ?_⟩
  · intro e h
    simp [linkInfoGet, h]
  · intro e h1 h2
    by_cases hvw : e.isValueWitness <;> by_cases hth : e.isThunk <;>
      by_cases hds : e.isDeserialized <;>
        simp_all [linkInfoGet]
  · intro e h1 h2
    by_cases hvw : e.isValueWitness <;> by_cases hth : e.isThunk <;>
      by_cases hds : e.isDeserialized <;>
        simp_all [linkInfoGet]
  · intro d
    exact ⟨rfl, rfl, rfl, rfl, rfl, rfl, rfl, rfl, rfl, rfl, rfl, rfl,
      rfl, rfl⟩
  · intro t w
    exact ⟨rfl, rfl, fun ii pp => rfl, rfl, rfl⟩

/-- Witness for C2: a declaration inside a local context gets internal
linkage, a value witness of a non-local type gets link-once hidden, and a
plain non-local function gets external linkage. -/
theorem linkInfoGet_decision_table_witness :
    linkInfoGet (LinkEntity.functionEntity exLocalDecl) =
      { linkage := Linkage.internal,
        visibility := Visibility.defaultVis } ∧
    linkInfoGet (LinkEntity.valueWitness LTy.base 0) =
      { linkage := Linkage.linkOnceODR,
        visibility := Visibility.hidden } ∧
    linkInfoGet (LinkEntity.functionEntity exGlobalDecl) =
      { linkage := Linkage.external,
        visibility := Visibility.defaultVis } :=
  ⟨linkInfoGet_decision_table.1 _ rfl,
    linkInfoGet_decision_table.2.1 _ rfl rfl,
    linkInfoGet_decision_table.2.2.1 _ rfl rfl⟩

/-- C3, counterexample: an anonymous closure entity and the witness-table
template entities are classified local (the anonymous closure even gets
internal linkage), and the bridge-to-block converter is classified
non-local, the opposite of the claim at these concrete entities. -/
theorem witness_template_locality_counterexample :
    (LinkEntity.anonymousFunction 0).isLocalLinkage = true ∧
    (LinkEntity.lazyProtocolWitnessTableTemplate 0).isLocalLinkage = true ∧
    (LinkEntity.dependentProtocolWitnessTableTemplate 0).isLocalLinkage
      = true ∧
    linkInfoGet (LinkEntity.anonymousFunction 0) =
      { linkage := Linkage.internal,
        visibility := Visibility.defaultVis } ∧
    (LinkEntity.bridgeToBlockConverter 0).isLocalLinkage = false := by
  exact ⟨rfl, rfl, rfl, rfl, rfl⟩

/-- C3, amended: witness-table accessor and generator entities are never
local; witness-table template entities and anonymous closures are always
local (the anonymous closure always receives internal linkage); the
bridge-to-block converter is never local and receives external-shaped
linkage, regardless of the particular conformance or payload. -/
theorem witness_template_locality_amended (c u : Nat) :
    (LinkEntity.directProtocolWitnessTable c).isLocalLinkage = false ∧
    (LinkEntity.lazyProtocolWitnessTableAccessor c).isLocalLinkage
      = false ∧
    (LinkEntity.dependentProtocolWitnessTableGenerator c).isLocalLinkage
      = false ∧
    (LinkEntity.lazyProtocolWitnessTableTemplate c).isLocalLinkage
      = true ∧
    (LinkEntity.dependentProtocolWitnessTableTemplate c).isLocalLinkage
      = true ∧
    (LinkEntity.anonymousFunction u).isLocalLinkage = true ∧
    linkInfoGet (LinkEntity.anonymousFunction u) =
      { linkage := Linkage.internal,
        visibility := Visibility.defaultVis } ∧
    (LinkEntity.bridgeToBlockConverter u).isLocalLinkage = false ∧
    linkInfoGet (LinkEntity.bridgeToBlockConverter u) =
      { linkage := Linkage.external,
        visibility := Visibility.defaultVis } :=
  ⟨rfl, rfl, rfl, rfl, rfl, rfl, rfl, rfl, rfl⟩

/-! ## Symbol creation and collisions -/

theorem uniquifyNameAux_length : ∀ (fuel : Nat) (m : List CSym)
    (n : String), n.length ≤ (uniquifyNameAux fuel m n).length := by
  intro fuel
  induction fuel with
  | zero => intro m n; simp [uniquifyNameAux]
  | succ f ih =>
      intro m n
      by_cases h : (getNamedValue m n).isSome
      · have h1 : n.length ≤ (n ++ ".u").length := by
          rw [String.length_append]
          omega
        have h2 := ih m (n ++ ".u")
        simp only [uniquifyNameAux, h, if_true]
        omega
      · simp [uniquifyNameAux, h]

theorem uniquifyName_of_free (m : List CSym) (n : String)
    (h : getNamedValue m n = none) : uniquifyName m n = n := by
  simp [uniquifyName, uniquifyNameAux, h]

theorem uniquifyName_taken_length (m : List CSym) (n : String)
    (h : (getNamedValue m n).isSome = true) :
    n.length < (uniquifyName m n).length := by
  have h1 : n.length < (n ++ ".u").length := by
    rw [String.length_append]
    have h2 : ".u".length = 2 := rfl
    omega
  have h3 := uniquifyNameAux_length m.length m (n ++ ".u")
  simp only [uniquifyName, uniquifyNameAux, h, if_true]
  omega

theorem renameSymbol_not_named (m : List CSym) (n newBase : String)
    (hlen : n.length < newBase.length) :
    getNamedValue (renameSymbol m n newBase) n = none := by
  have htar : newBase.length ≤
      (uniquifyName (m.filter (fun s => s.name ≠ n)) newBase).length :=
    uniquifyNameAux_length _ _ _
  rw [renameSymbol, getNamedValue, List.find?_eq_none]
  intro x hx
  obtain ⟨s, hs, rfl⟩ := List.mem_map.mp hx
  by_cases hn : s.name = n
  · simp only [if_pos hn, beq_iff_eq]
    intro he
    rw [he] at htar
    omega
  · simp only [if_neg hn, beq_iff_eq]
    exact hn

theorem renameSymbol_mem (m : List CSym) (n newBase : String) (s : CSym)
    (hs : s ∈ m) (hn : s.name = n) :
    { s with
      name := uniquifyName (m.filter (fun y => y.name ≠ n)) newBase } ∈
      renameSymbol m n newBase := by
  have hmem := List.mem_map_of_mem (fun x =>
    if x.name = n then
      { x with
        name := uniquifyName (m.filter (fun y => y.name ≠ n)) newBase }
    else x) hs
  rw [renameSymbol]
  simpa [hn] using hmem

/-- C4, amended: a collision that the lookup can see — an existing
function of the wrong type for a function request, or any wrong-shaped
named value for a variable request — is diagnosed at the null source
location with a message naming the colliding mangled name, the existing
symbol is renamed with a disambiguating suffix, and a fresh symbol with
the requested name, type, linkage and visibility is created; a compatible
existing symbol is returned unchanged with no diagnostic.  But a function
request whose mangled name belongs to a non-function symbol is not
detected: no diagnostic is emitted, the existing symbol keeps its name,
and the new function is created under an implicitly uniqued name. -/
theorem createSymbol_collision_spec (name : String) (lk : Linkage)
    (vis : Visibility) (m : List CSym) (ty : Nat) :
    (∀ ex, getFunction m name = some ex → ex.ty = ty →
      createFunction name lk vis m ty = (ex, m, [])) ∧
    (∀ ex, getFunction m name = some ex → ex.ty ≠ ty →
      (createFunction name lk vis m ty).2.2 =
        [{ loc := none, message := funcCollisionMessage name }] ∧
      (createFunction name lk vis m ty).1 =
        { name := name, isFn := true, ty := ty, linkage := lk,
          visibility := vis } ∧
      (createFunction name lk vis m ty).1 ∈
        (createFunction name lk vis m ty).2.1 ∧
      ∃ s', s' ∈ (createFunction name lk vis m ty).2.1 ∧
        s'.isFn = ex.isFn ∧ s'.ty = ex.ty ∧ s'.name ≠ name) ∧
    (∀ ex, getNamedValue m name = some ex → ex.isFn = false →
      (createFunction name lk vis m ty).2.2 = [] ∧
      (createFunction name lk vis m ty).2.1 =
        m ++ [(createFunction name lk vis m ty).1] ∧
      (createFunction name lk vis m ty).1.name ≠ name) ∧
    (∀ ex, getNamedGlobal m name = some ex → ex.isFn = false →
      ex.ty = ty → createVariable name lk vis m ty = (ex, m, [])) ∧
    (∀ ex, getNamedGlobal m name = some ex →
      (ex.isFn = true ∨ ex.ty ≠ ty) →
      (createVariable name lk vis m ty).2.2 =
        [{ loc := none, message := varCollisionMessage name }] ∧
      (createVariable name lk vis m ty).1 =
        { name := name, isFn := false, ty := ty, linkage := lk,
          visibility := vis } ∧
      (createVariable name lk vis m ty).1 ∈
        (createVariable name lk vis m ty).2.1 ∧
      ∃ s', s' ∈ (createVariable name lk vis m ty).2.1 ∧
        s'.isFn = ex.isFn ∧ s'.ty = ex.ty ∧ s'.name ≠ name) := by
  have hulen : name.length < (name ++ ".unique").length := by
    rw [String.length_append]
    have h7 : ".unique".length = 7 := rfl
    omega
  have hfree : getNamedValue
      (renameSymbol m name (name ++ ".unique")) name = none :=
    renameSymbol_not_named m name (name ++ ".unique") hulen
  have huniq : uniquifyName
      (renameSymbol m name (name ++ ".unique")) name = name :=
    uniquifyName_of_free _ _ hfree
  have htarlen : name.length <
      (uniquifyName (m.filter (fun y => y.name ≠ name))
        (name ++ ".unique")).length := by
    have h1 : (name ++ ".unique").length ≤
        (uniquifyName (m.filter (fun y => y.name ≠ name))
          (name ++ ".unique")).length := uniquifyNameAux_length _ _ _
    omega
  refine ⟨?_, ?_, ?_, ?_, ?_⟩
  · intro ex hex hty
    simp [createFunction, hex, hty]
  · intro ex hex hty
    have hnv : getNamedValue m name = some ex ∧ ex.isFn = true := by
      cases hg : getNamedValue m name with
      | none =>
          rw [getFunction, hg] at hex
          exact Option.noConfusion hex
      | some s =>
          rw [getFunction, hg] at hex
          change (if s.isFn = true then some s else none) = some ex at hex
          by_cases hf : s.isFn = true
          · rw [if_pos hf] at hex
            have hse : s = ex := Option.some.inj hex
            subst hse
            exact ⟨rfl, hf⟩
          · rw [if_neg hf] at hex
            exact Option.noConfusion hex
    have hexmem : ex ∈ m := by
      have := hnv.1
      rw [getNamedValue] at this
      exact List.mem_of_find?_eq_some this
    have hexname : ex.name = name := by
      have := hnv.1
      rw [getNamedValue] at this
      have h2 := List.find?_some this
      simpa using h2
    refine ⟨?_, ?_, ?_, ?_⟩
    · simp [createFunction, hex, hty]
    · simp [createFunction, hex, hty, insertSymbol, huniq]
    · simp [createFunction, hex, hty, insertSymbol, huniq]
    · have hrenmem :=
        renameSymbol_mem m name (name ++ ".unique") ex hexmem hexname
      have hmem2 : ({ ex with
          name := uniquifyName (m.filter (fun y => y.name ≠ name))
            (name ++ ".unique") } : CSym) ∈
          (createFunction name lk vis m ty).2.1 := by
        simp only [createFunction, hex, if_neg hty, insertSymbol]
        exact List.mem_append_left _ hrenmem
      refine Exists.intro _ ⟨hmem2, rfl, rfl, ?_⟩
      intro he
      have he2 : uniquifyName (m.filter (fun y => y.name ≠ name))
          (name ++ ".unique") = name := he
      rw [he2] at htarlen
      omega
  · intro ex hex hisfn
    have hgf : getFunction m name = none := by
      rw [getFunction, hex]
      change (if ex.isFn = true then some ex else none) = none
      simp [hisfn]
    have htaken : (getNamedValue m name).isSome = true := by
      rw [hex]
      rfl
    have hlen := uniquifyName_taken_length m name htaken
    refine ⟨?_, ?_, ?_⟩
    · simp [createFunction, hgf, insertSymbol]
    · simp [createFunction, hgf, insertSymbol]
    · simp only [createFunction, hgf, insertSymbol]
      intro he
      rw [he] at hlen
      omega
  · intro ex hex hisfn hty
    have hex2 : getNamedValue m name = some ex := hex
    simp [createVariable, getNamedGlobal, hex2, hisfn, hty]
  · intro ex hex hbad
    have hcond : ¬(ex.isFn = false ∧ ex.ty = ty) := by
      rcases hbad with h | h
      · intro hc
        rw [h] at hc
        exact Bool.noConfusion hc.1
      · intro hc
        exact h hc.2
    have hex2 : getNamedValue m name = some ex := hex
    have hexmem : ex ∈ m := by
      have h2 : getNamedValue m name = some ex := hex
      rw [getNamedValue] at h2
      exact List.mem_of_find?_eq_some h2
    have hexname : ex.name = name := by
      have h2 : getNamedValue m name = some ex := hex
      rw [getNamedValue] at h2
      have h3 := List.find?_some h2
      simpa using h3
    refine ⟨?_, ?_, ?_, ?_⟩
    · simp [createVariable, getNamedGlobal, hex2, hcond]
    · simp [createVariable, getNamedGlobal, hex2, hcond, insertSymbol,
        huniq]
    · simp [createVariable, getNamedGlobal, hex2, hcond, insertSymbol,
        huniq]
    · have hrenmem :=
        renameSymbol_mem m name (name ++ ".unique") ex hexmem hexname
      have hmem2 : ({ ex with
          name := uniquifyName (m.filter (fun y => y.name ≠ name))
            (name ++ ".unique") } : CSym) ∈
          (createVariable name lk vis m ty).2.1 := by
        simp only [createVariable, getNamedGlobal, hex2, if_neg hcond,
          insertSymbol]
        exact List.mem_append_left _ hrenmem
      refine Exists.intro _ ⟨hmem2, rfl, rfl, ?_⟩
      intro he
      have he2 : uniquifyName (m.filter (fun y => y.name ≠ name))
          (name ++ ".unique") = name := he
      rw [he2] at htarlen
      omega

/-- Witness for C4 (amended): a compatible existing function is returned
unchanged with no diagnostic. -/
theorem createSymbol_collision_spec_witness :
    createFunction "f" Linkage.external Visibility.defaultVis exModule2 5 =
      ({ name := "f", isFn := true, ty := 5, linkage := Linkage.external,
         visibility := Visibility.defaultVis }, exModule2, []) :=
  (createSymbol_collision_spec "f" Linkage.external Visibility.defaultVis
    exModule2 5).1
    { name := "f", isFn := true, ty := 5, linkage := Linkage.external,
      visibility := Visibility.defaultVis } (by decide) (by decide)

/-- C4, counterexample: a function request whose mangled name belongs to
an existing global variable (an incompatible shape) produces no
diagnostic; the existing symbol keeps its name and the new function is
silently created under a uniqued name, contrary to the claim. -/
theorem createFunction_silent_cross_collision :
    (getNamedValue exModule "m").isSome = true ∧
    ((getNamedValue exModule "m").getD default).isFn = false ∧
    (createFunction "m" Linkage.external Visibility.defaultVis exModule
      5).2.2 = [] ∧
    (createFunction "m" Linkage.external Visibility.defaultVis exModule
      5).1.name ≠ "m" ∧
    ((createFunction "m" Linkage.external Visibility.defaultVis exModule
      5).2.1.map CSym.name) = ["m", "m.u"] := by
  decide

end GenDecl
